import Mathlib

/-!
# goipcalc: IPv4 subnet arithmetic

A shallow embedding of `src/ipv4.go` and `src/subnet.go`.

Conventions of the embedding:
* a Go `uint32` is a `Nat` below `2 ^ 32`; every operation that can leave that
  range is reduced `% 2 ^ 32` (`add32`, `sub32`, `shl32`, `not32`);
* a Go `int` is an `Int`; it is taken to be 64 bits wide (amd64 / arm64), and
  an operation that can leave the range is wrapped with `wrapInt`;
* loop counters that stay in `[0, 32]` are `Nat`;
* functions that only print are modelled by the values they print;
* a loop that may not terminate takes a fuel argument and returns `none` when
  the fuel runs out before the loop condition becomes false.
-/

namespace Goipcalc

/-! ## Machine arithmetic -/

/-- Two's complement wrap of an integer into the 64-bit `int` range. -/
def wrapInt (x : Int) : Int := (x + 2 ^ 63) % 2 ^ 64 - 2 ^ 63

/-- Conversion `uint(x)` of an `int` to the 64-bit unsigned type. -/
def toUint (x : Int) : Nat := (x % 2 ^ 64).toNat

/-- Conversion `uint32(x)` of an `int`. -/
def toUint32 (x : Int) : Nat := (x % 2 ^ 32).toNat

/-- Loop behind `bitsLen`: at most `fuel` halvings. -/
def bitsLenAux : Nat → Nat → Nat
  | 0, _ => 0
  | fuel + 1, x => if x = 0 then 0 else bitsLenAux fuel (x / 2) + 1

/-- Go's `bits.Len` on a 64-bit word: the number of bits needed to write `x`,
and `0` for `x = 0`. -/
def bitsLen (x : Nat) : Nat := bitsLenAux 64 x

/-- Left shift on `uint32`; a count of 32 or more gives 0. -/
def shl32 (x s : Nat) : Nat := (x <<< s) % 2 ^ 32

/-- Subtraction on `uint32`. -/
def sub32 (x y : Nat) : Nat := (x + 2 ^ 32 - y % 2 ^ 32) % 2 ^ 32

/-- Addition on `uint32`. -/
def add32 (x y : Nat) : Nat := (x + y) % 2 ^ 32

/-- Bitwise complement `^x` on `uint32`. -/
def not32 (x : Nat) : Nat := 2 ^ 32 - 1 - x % 2 ^ 32

/-! ## `src/ipv4.go` -/

/-- The function `cidrToMask` of `ipv4.go`. -/
def cidrToMask (cidr : Int) : Nat :=
  if cidr < 0 ∨ cidr > 32 then 0
  else not32 (sub32 (shl32 1 (32 - cidr).toNat) 1)

/-! ## `src/subnet.go` -/

/-- The function `round2PowerOf2`: `1 << bits.Len(uint(n-1))` is computed in
`int`, so the result wraps for a shift count of 63. -/
def round2PowerOf2 (n : Int) : Int :=
  if n ≤ 0 then 1 else wrapInt (2 ^ bitsLen (toUint (n - 1)))

/-- The function `size2BitCountMask`. -/
def size2BitCountMask (size : Int) : Int :=
  if size ≤ 0 then 32 else 32 - (bitsLen (toUint (size - 1)) : Int)

/-- Inner loop of `deaggregate` (`for step < 32`), started at `step`; the
value returned is `step` when the loop is left. -/
def deaggStep (base end_ : Nat) : Nat → Nat → Nat
  | 0, step => step
  | fuel + 1, step =>
    if step < 32 then
      if (base ||| shl32 1 step) ≠ base then step
      else if (base ||| not32 (sub32 (shl32 1 (32 - step)) 1)) > end_ then step
      else deaggStep base end_ fuel (step + 1)
    else step

/-- Outer loop of `deaggregate` (`for base <= end`): the list of printed
blocks `(address, 32 - step)`, or `none` when `fuel` iterations do not
reach `base > end`. -/
def deaggregateLoop (end_ : Nat) : Nat → Nat → Option (List (Nat × Int))
  | 0, base => if base ≤ end_ then none else some []
  | fuel + 1, base =>
    if base ≤ end_ then
      (deaggregateLoop end_ fuel (add32 base (shl32 1 (deaggStep base end_ 32 0)))).map
        (fun rest => (base, 32 - (deaggStep base end_ 32 0 : Int)) :: rest)
    else some []

/-- The function `deaggregate`, run for at most `fuel` iterations. -/
def deaggregate (fuel start end_ : Nat) : Option (List (Nat × Int)) :=
  deaggregateLoop end_ fuel start

/-- The local type `netInfo` of `splitNetwork`. -/
structure NetInfo where
  size : Int
  net : Nat
  mask : Int
deriving DecidableEq

/-- First loop of `splitNetwork`: one `netInfo` per requested size. -/
def buildNets (sizes : List Int) : List NetInfo :=
  sizes.map (fun size =>
    { size := round2PowerOf2 (wrapInt (size + 2)),
      net := 0,
      mask := size2BitCountMask (round2PowerOf2 (wrapInt (size + 2))) })

/-- First loop of `splitNetwork`: the accumulator `neededAddresses`. -/
def neededAddresses (sizes : List Int) : Int :=
  sizes.foldl (fun acc size => wrapInt (acc + round2PowerOf2 (wrapInt (size + 2)))) 0

/-- Body of the sorting loops: `if nets[k].size < nets[j].size` swap them. -/
def swapIfLess (nets : List NetInfo) (k j : Nat) : List NetInfo :=
  match nets[k]?, nets[j]? with
  | some a, some b => if a.size < b.size then (nets.set k b).set j a else nets
  | _, _ => nets

/-- Inner sorting loop `for j := k + 1; j < len(nets); j++`, entered at `j`. -/
def sortInner (k : Nat) : Nat → Nat → List NetInfo → List NetInfo
  | 0, _, nets => nets
  | fuel + 1, j, nets =>
    if j < nets.length then sortInner k fuel (j + 1) (swapIfLess nets k j) else nets

/-- Outer sorting loop `for k := 0; k < len(nets)-1; k++`, entered at `k`. -/
def sortOuter : Nat → Nat → List NetInfo → List NetInfo
  | 0, _, nets => nets
  | fuel + 1, k, nets =>
    if k + 1 < nets.length then
      sortOuter fuel (k + 1) (sortInner k nets.length (k + 1) nets)
    else nets

/-- The "sort by size descending" loops of `splitNetwork`. -/
def sortNets (nets : List NetInfo) : List NetInfo :=
  sortOuter nets.length 0 nets

/-- Packing loop of `splitNetwork`: `nets[i].net = currentNet;
currentNet += uint32(nets[i].size)`; returns the blocks and the final
`currentNet`. -/
def assignNets : Nat → List NetInfo → List NetInfo × Nat
  | currentNet, [] => ([], currentNet)
  | currentNet, n :: rest =>
    ({ n with net := currentNet } ::
        (assignNets (add32 currentNet (toUint32 n.size)) rest).1,
      (assignNets (add32 currentNet (toUint32 n.size)) rest).2)

/-- One entry of the report loop of `splitNetwork`: the heading
`"%d. Requested size: %d hosts"` and the block printed under it. -/
structure Report where
  index : Nat
  requested : Int
  net : Nat
  mask : Int
deriving DecidableEq

/-- Report loop `for i, size := range sizes`: heading `i+1`, `size` and the
block `nets[i]`. -/
def reportLoop : Nat → List Int → List NetInfo → List Report
  | i, size :: sizes, n :: nets =>
    { index := i + 1, requested := size, net := n.net, mask := n.mask } ::
      reportLoop (i + 1) sizes nets
  | _, _, _ => []

/-- Everything `splitNetwork` prints, apart from the unused blocks. -/
structure SplitResult where
  nets : List NetInfo
  reports : List Report
  neededAddresses : Int
  usedMask : Int
  tooSmall : Bool
  currentNet : Nat
  broadcast : Nat
deriving DecidableEq

/-- The function `splitNetwork`; `mask2` only selects display colours and is
left out. The trailing `deaggregate(currentNet, broadcast)` is `splitUnused`. -/
def splitNetwork (network : Nat) (mask1 : Int) (sizes : List Int) : SplitResult :=
  { nets := (assignNets network (sortNets (buildNets sizes))).1,
    reports := reportLoop 0 sizes (assignNets network (sortNets (buildNets sizes))).1,
    neededAddresses := neededAddresses sizes,
    usedMask := size2BitCountMask (neededAddresses sizes),
    tooSmall := decide (size2BitCountMask (neededAddresses sizes) < mask1),
    currentNet := (assignNets network (sortNets (buildNets sizes))).2,
    broadcast := network ||| not32 (cidrToMask mask1) }

/-- The "Unused:" section of `splitNetwork`. -/
def splitUnused (fuel network : Nat) (mask1 : Int) (sizes : List Int) :
    Option (List (Nat × Int)) :=
  deaggregate fuel (splitNetwork network mask1 sizes).currentNet
    (splitNetwork network mask1 sizes).broadcast

/-- Enumeration loop of `subnets`
(`for subnetNum < subnetCount && subnetNum < 1000`), entered at `subnetNum`:
the child networks printed. -/
def subnetsLoop (network : Nat) (mask2 subnetCount : Int) : Nat → Nat → List Nat
  | 0, _ => []
  | fuel + 1, subnetNum =>
    if (subnetNum : Int) < subnetCount ∧ subnetNum < 1000 then
      (network ||| shl32 (toUint32 subnetNum) (32 - mask2).toNat) ::
        subnetsLoop network mask2 subnetCount fuel (subnetNum + 1)
    else []

/-- The value `subnetCount := 1 << (mask2 - mask1)` of `subnets`. -/
def subnetCount (mask1 mask2 : Int) : Int := wrapInt (2 ^ (mask2 - mask1).toNat)

/-- The child networks enumerated by `subnets`, in the order printed. -/
def subnets (network : Nat) (mask1 mask2 : Int) : List Nat :=
  subnetsLoop network mask2 (subnetCount mask1 mask2) 1000 0

/-! ## Auxiliary definitions used in the statements and proofs -/

/-- Address set of the block `a/q`: the `2 ^ (32 - q)` addresses from `a`. -/
def inBlock (b : Nat × Int) (x : Nat) : Prop :=
  b.1 ≤ x ∧ x < b.1 + 2 ^ (32 - b.2).toNat

instance (b : Nat × Int) (x : Nat) : Decidable (inBlock b x) :=
  inferInstanceAs (Decidable (b.1 ≤ x ∧ x < b.1 + 2 ^ (32 - b.2).toNat))

/-- CIDR alignment: the block address is a multiple of `2 ^ (32 - q)`. -/
def blockAligned (b : Nat × Int) : Prop := b.1 % 2 ^ (32 - b.2).toNat = 0

instance (b : Nat × Int) : Decidable (blockAligned b) :=
  inferInstanceAs (Decidable (b.1 % 2 ^ (32 - b.2).toNat = 0))

/-- A list of blocks covers exactly the inclusive range `[s, e]`. -/
def coversExactly (bs : List (Nat × Int)) (s e : Nat) : Prop :=
  ∀ x, (∃ b ∈ bs, inBlock b x) ↔ (s ≤ x ∧ x ≤ e)

/-- What the first loop of `splitNetwork` guarantees of every entry: the mask
length is computed from the size, and the size is a power of two below
`2 ^ 63` or the overflowed value `-2 ^ 63`. -/
def SizeOK (n : NetInfo) : Prop :=
  n.mask = size2BitCountMask n.size ∧
    (n.size = -2 ^ 63 ∨ ∃ k : Nat, k ≤ 62 ∧ n.size = 2 ^ k)

/-- One selection pass: the head `x` is compared with every later element and
exchanged with each larger one; returns the final head and the rest. -/
def selPass : NetInfo → List NetInfo → NetInfo × List NetInfo
  | x, [] => (x, [])
  | x, y :: ys =>
    if x.size < y.size then ((selPass y ys).1, x :: (selPass y ys).2)
    else ((selPass x ys).1, y :: (selPass x ys).2)

/-- Selection sort by repeated `selPass`, at most `fuel` passes. -/
def selSort : Nat → List NetInfo → List NetInfo
  | 0, l => l
  | _ + 1, [] => []
  | fuel + 1, x :: xs => (selPass x xs).1 :: selSort fuel (selPass x xs).2

/-! ## `src/ipv4.go`, continued -/

/-- The four bytes of an IPv4 address (`net.IP` after `To4`). -/
structure IPv4 where
  b0 : Nat
  b1 : Nat
  b2 : Nat
  b3 : Nat
deriving DecidableEq

/-- The function `ipToUint32`, on the four bytes `ip.To4()`. -/
def ipToUint32 (ip : IPv4) : Nat :=
  shl32 ip.b0 24 ||| shl32 ip.b1 16 ||| shl32 ip.b2 8 ||| ip.b3 % 2 ^ 32

/-- Loop of `maskToCIDR` (`for i := 0; i < 32; i++`), entered at `i` with the
counter `cidr`; the `break` leaves the loop with the current counter. -/
def maskToCIDRLoop (mask : Nat) : Nat → Nat → Nat → Nat
  | 0, _, cidr => cidr
  | fuel + 1, i, cidr =>
    if i < 32 then
      if (mask &&& shl32 1 (31 - i)) ≠ 0 then maskToCIDRLoop mask fuel (i + 1) (cidr + 1)
      else cidr
    else cidr

/-- The function `maskToCIDR`. -/
def maskToCIDR (mask : Nat) : Int := (maskToCIDRLoop mask 32 0 0 : Nat)

/-- Loop of `isValidNetmask`, entered at `i` with the flag `sawZero`. -/
def isValidNetmaskLoop (mask : Nat) : Nat → Nat → Bool → Bool
  | 0, _, _ => true
  | fuel + 1, i, sawZero =>
    if i < 32 then
      if (mask >>> (31 - i)) &&& 1 = 0 then isValidNetmaskLoop mask fuel (i + 1) true
      else if sawZero then false
      else isValidNetmaskLoop mask fuel (i + 1) sawZero
    else true

/-- The function `isValidNetmask`. -/
def isValidNetmask (mask : Nat) : Bool := isValidNetmaskLoop mask 32 0 false

/-! ## `src/output.go` -/

/-- The lines `printNet` prints for one network: each address line is
`some` address when the line is printed and `none` when it is not; `hosts` is
the number after "Hosts/Net:". -/
structure NetLines where
  hostroute : Option Nat
  network : Option Nat
  hostMin : Option Nat
  hostMax : Option Nat
  broadcast : Option Nat
  hosts : Nat
deriving DecidableEq

/-- The value `broadcast` of `printNet`. -/
def netBroadcast (network mask : Nat) : Nat := network ||| not32 mask

/-- The value `hmin` of `printNet` after the `cidr1 == 31` adjustment. -/
def netHostMin (network : Nat) (cidr1 : Int) : Nat :=
  if cidr1 = 31 then network else add32 network 1

/-- The value `hmax` of `printNet` after the `cidr1 == 31` adjustment. -/
def netHostMax (network mask : Nat) (cidr1 : Int) : Nat :=
  if cidr1 = 31 then netBroadcast network mask else sub32 (netBroadcast network mask) 1

/-- The value `hostn` of `printNet` after both adjustments:
`hmax - hmin + 1`, then 2 for `cidr1 == 31`, then 1 for `cidr1 == 32`. -/
def netHosts (network mask : Nat) (cidr1 : Int) : Nat :=
  if cidr1 = 32 then 1
  else if cidr1 = 31 then 2
  else add32 (sub32 (sub32 (netBroadcast network mask) 1) (add32 network 1)) 1

/-- The function `printNet`; `cidr2` only selects display colours and is left
out. -/
def printNet (network mask : Nat) (cidr1 : Int) : NetLines :=
  if cidr1 = 32 then
    { hostroute := some network, network := none, hostMin := none, hostMax := none,
      broadcast := none, hosts := netHosts network mask cidr1 }
  else
    { hostroute := none, network := some network,
      hostMin := some (netHostMin network cidr1),
      hostMax := some (netHostMax network mask cidr1),
      broadcast := if cidr1 < 31 then some (netBroadcast network mask) else none,
      hosts := netHosts network mask cidr1 }

/-! ## `src/subnet.go`, continued -/

/-- The function `supernet`: the network printed after
`network = network & mask2Uint`. -/
def supernet (network : Nat) (mask2 : Int) : NetLines :=
  printNet (network &&& cidrToMask mask2) (cidrToMask mask2) mask2

/-- Final value of the counter `subnetNum` of the enumeration loop of
`subnets`, entered at `subnetNum`. -/
def subnetsLoopNum (subnetCount : Int) : Nat → Nat → Nat
  | 0, subnetNum => subnetNum
  | fuel + 1, subnetNum =>
    if (subnetNum : Int) < subnetCount ∧ subnetNum < 1000 then
      subnetsLoopNum subnetCount fuel (subnetNum + 1)
    else subnetNum

/-- Whether `subnets` prints "... stopped at 1000 subnets ..."
(`if subnetNum >= 1000`). -/
def subnetsStopped (mask1 mask2 : Int) : Bool :=
  decide (subnetsLoopNum (subnetCount mask1 mask2) 1000 0 ≥ 1000)

/-- The value `hostn` of `subnets`:
`(network | ^mask2Uint) - network - 1`, raised to 1 when below 1. -/
def subnetsHostn (network : Nat) (mask2 : Int) : Nat :=
  if sub32 (sub32 (network ||| not32 (cidrToMask mask2)) network) 1 < 1 then 1
  else sub32 (sub32 (network ||| not32 (cidrToMask mask2)) network) 1

/-- The number `subnets` prints after "Hosts:":
`uint64(hostn) * uint64(subnetCount)`. -/
def subnetsHosts (network : Nat) (mask1 mask2 : Int) : Nat :=
  (subnetsHostn network mask2 * toUint (subnetCount mask1 mask2)) % 2 ^ 64

/-! ## Texts, and the Go standard library functions used by `parseNetmask`

A text is the list of its bytes. `strings.TrimPrefix`, `strconv.Atoi` and
`net.ParseIP` are not code of this repository; they are modelled from the
documentation and source of the Go standard library. -/

/-- The bytes of an ASCII text. -/
def ascii (s : String) : List Nat := s.toList.map Char.toNat

/-- Modelled from the Go standard library: `strings.TrimPrefix(arg, "/")`
removes one leading `/` (byte 47) when there is one. -/
def trimSlash : List Nat → List Nat
  | [] => []
  | c :: rest => if c = 47 then rest else c :: rest

/-- Value of a run of decimal digits (bytes 48 to 57) read from the left
with accumulator `acc`; `none` when another byte occurs. -/
def digitsValue : List Nat → Nat → Option Nat
  | [], acc => some acc
  | c :: cs, acc =>
    if 48 ≤ c ∧ c ≤ 57 then digitsValue cs (acc * 10 + (c - 48)) else none

/-- Modelled from the Go standard library: `strconv.Atoi`. The text is an
optional sign `+` (43) or `-` (45) followed by at least one decimal digit and
nothing else, and the value must fit the 64-bit `int`; every other text is
an error (`none`). -/
def atoi (s : List Nat) : Option Int :=
  match s with
  | [] => none
  | c :: rest =>
    if c = 45 then
      if rest = [] then none
      else (digitsValue rest 0).bind
        (fun n => if n ≤ 2 ^ 63 then some (-(n : Int)) else none)
    else if c = 43 then
      if rest = [] then none
      else (digitsValue rest 0).bind (fun n => if n < 2 ^ 63 then some (n : Int) else none)
    else (digitsValue (c :: rest) 0).bind
      (fun n => if n < 2 ^ 63 then some (n : Int) else none)

/-- Modelled from the Go standard library: the field loop of the IPv4 text
parser (`parseIPv4Fields` of `net/netip`). `val` is the value of the current
field, `digLen` its number of digits, `fields` the fields completed so far.
A field has at least one digit, no leading zero and a value of at most 255;
fields are separated by single dots (46); there are exactly four. -/
def parseIPv4Loop : List Nat → Nat → Nat → List Nat → Option IPv4
  | [], val, _, fields =>
    match fields with
    | [a, b, c] => some { b0 := a, b1 := b, b2 := c, b3 := val }
    | _ => none
  | ch :: rest, val, digLen, fields =>
    if 48 ≤ ch ∧ ch ≤ 57 then
      if digLen = 1 ∧ val = 0 then none
      else if val * 10 + (ch - 48) > 255 then none
      else parseIPv4Loop rest (val * 10 + (ch - 48)) (digLen + 1) fields
    else if ch = 46 then
      if digLen = 0 ∨ rest = [] then none
      else if fields.length = 3 then none
      else parseIPv4Loop rest 0 0 (fields ++ [val])
    else none

/-- Modelled from the Go standard library: the IPv4 dotted decimal parser. -/
def parseIPv4 (s : List Nat) : Option IPv4 := parseIPv4Loop s 0 0 []

/-- The first of the bytes `.` (46), `:` (58), `%` (37) in a text, by which
Go's `netip.ParseAddr` chooses between the IPv4 and the IPv6 parser. -/
def firstSep : List Nat → Option Nat
  | [] => none
  | c :: rest => if c = 46 ∨ c = 58 ∨ c = 37 then some c else firstSep rest

/-- The text after the leading bytes `head`, when the text starts with them. -/
def stripHead : List Nat → List Nat → Option (List Nat)
  | [], s => some s
  | _ :: _, [] => none
  | h :: hs, c :: cs => if h = c then stripHead hs cs else none

/-- Modelled from the Go standard library: `net.ParseIP(s)` followed by
`To4()`; `none` stands for a nil result of either. A text whose first
separator is a dot is read by the IPv4 parser. A text whose first separator
is a colon is an IPv6 text, and `To4` is non-nil exactly when the address is
IPv4-mapped: the documented form `::ffff:a.b.c.d` is modelled; what every
other IPv6 text gives is the parameter `v6`. -/
def parseIPTo4 (v6 : List Nat → Option IPv4) (s : List Nat) : Option IPv4 :=
  match firstSep s with
  | none => none
  | some c =>
    if c = 46 then parseIPv4 s
    else if c = 58 then
      match stripHead (ascii "::ffff:") s with
      | none => v6 s
      | some q =>
        match parseIPv4 q with
        | some ip => some ip
        | none => v6 s
    else none

/-! ## `src/ipv4.go`: `parseNetmask` -/

/-- The two errors of `parseNetmask`: `"invalid CIDR: %d"` and
`"invalid netmask: %s"`. -/
inductive MaskError where
  | invalidCIDR (cidr : Int)
  | invalidNetmask
deriving DecidableEq

/-- The result `(int, error)` of `parseNetmask`. -/
inductive MaskResult where
  | ok (cidr : Int)
  | error (e : MaskError)
deriving DecidableEq

/-- The function `parseNetmask`; `v6` is the part of `net.ParseIP` that is
not modelled (see `parseIPTo4`). -/
def parseNetmask (v6 : List Nat → Option IPv4) (arg : List Nat) : MaskResult :=
  match atoi (trimSlash arg) with
  | some cidr =>
    if cidr ≥ 0 ∧ cidr ≤ 32 then MaskResult.ok cidr
    else MaskResult.error (MaskError.invalidCIDR cidr)
  | none =>
    match parseIPTo4 v6 (trimSlash arg) with
    | some ip =>
      if isValidNetmask (ipToUint32 ip) = true then
        MaskResult.ok (maskToCIDR (ipToUint32 ip))
      else if isValidNetmask (not32 (ipToUint32 ip)) = true then
        MaskResult.ok (maskToCIDR (not32 (ipToUint32 ip)))
      else MaskResult.error MaskError.invalidNetmask
    | none => MaskResult.error MaskError.invalidNetmask

/-- Digits of `n` in front of `acc`, most significant first; `fuel` bounds the
number of digits. -/
def decimalTextAux : Nat → Nat → List Nat → List Nat
  | 0, _, acc => acc
  | fuel + 1, n, acc =>
    if n < 10 then (48 + n) :: acc
    else decimalTextAux fuel (n / 10) ((48 + n % 10) :: acc)

/-- The decimal text of a natural number, without sign or leading zeros. -/
def decimalText (n : Nat) : List Nat := decimalTextAux (n + 1) n []

/-- The dotted quad text `a.b.c.d`. -/
def dottedQuad (a b c d : Nat) : List Nat :=
  decimalText a ++ 46 :: (decimalText b ++ 46 :: (decimalText c ++ 46 :: decimalText d))

/-- What the digit branch of `parseIPv4Loop` does on a run of digits:
the final `(val, digLen)`, or `none` when a leading zero or a value above
255 is met. -/
def octetScan : List Nat → Nat → Nat → Option (Nat × Nat)
  | [], val, digLen => some (val, digLen)
  | ch :: rest, val, digLen =>
    if digLen = 1 ∧ val = 0 then none
    else if val * 10 + (ch - 48) > 255 then none
    else octetScan rest (val * 10 + (ch - 48)) (digLen + 1)

/-- The function `uint32ToIP`: the bytes `n >> 24`, `n >> 16`, `n >> 8`, `n`,
each truncated to 8 bits. -/
def uint32ToIP (n : Nat) : IPv4 :=
  { b0 := (n >>> 24) % 256, b1 := (n >>> 16) % 256, b2 := (n >>> 8) % 256, b3 := n % 256 }

/-- The block size of a request for `c` hosts as an exact integer: the least
power of two that is at least `c + 2` (`Nat.clog 2` is the ceiling of the
base-2 logarithm). It is what `round2PowerOf2 (c + 2)` computes when nothing
overflows. -/
def exactBlockSize (c : Int) : Int := 2 ^ Nat.clog 2 (c + 2).toNat

/-! ## Bit length -/

theorem bitsLenAux_le_iff (fuel : Nat) : ∀ x n : Nat, x < 2 ^ fuel →
    (bitsLenAux fuel x ≤ n ↔ x < 2 ^ n) := by
  induction fuel with
  | zero =>
    intro x n hx
    have h0 : x = 0 := by simpa using hx
    subst h0
    simp [bitsLenAux]
  | succ f ih =>
    intro x n hx
    unfold bitsLenAux
    by_cases h0 : x = 0
    · subst h0; simp
    · rw [if_neg h0]
      cases n with
      | zero =>
        simp only [pow_zero, Nat.lt_one_iff]
        constructor
        · intro h; omega
        · intro h; exact absurd h h0
      | succ m =>
        have hx2 : x / 2 < 2 ^ f := by
          rw [Nat.div_lt_iff_lt_mul (by norm_num)]
          rw [pow_succ] at hx; exact hx
        rw [Nat.succ_le_succ_iff, ih (x / 2) m hx2,
          Nat.div_lt_iff_lt_mul (by norm_num), pow_succ]

theorem bitsLen_le_iff (x n : Nat) (hx : x < 2 ^ 64) : bitsLen x ≤ n ↔ x < 2 ^ n :=
  bitsLenAux_le_iff 64 x n hx

theorem lt_pow_bitsLen (x : Nat) (hx : x < 2 ^ 64) : x < 2 ^ bitsLen x :=
  (bitsLen_le_iff x (bitsLen x) hx).1 le_rfl

theorem bitsLen_pos (x : Nat) (hx : x < 2 ^ 64) (h0 : x ≠ 0) : 0 < bitsLen x := by
  rcases Nat.eq_zero_or_pos (bitsLen x) with h | h
  · have := (bitsLen_le_iff x 0 hx).1 (by omega)
    simp at this; exact absurd this h0
  · exact h

theorem pow_bitsLen_pred_le (x : Nat) (hx : x < 2 ^ 64) (h0 : x ≠ 0) :
    2 ^ (bitsLen x - 1) ≤ x := by
  have hp := bitsLen_pos x hx h0
  by_contra hlt
  have := (bitsLen_le_iff x (bitsLen x - 1) hx).2 (by omega)
  omega

theorem bitsLen_pow_sub_one (k : Nat) (hk : k ≤ 64) : bitsLen (2 ^ k - 1) = k := by
  have hpos : 0 < 2 ^ k := Nat.two_pow_pos k
  have hlt : 2 ^ k - 1 < 2 ^ 64 := by
    have : 2 ^ k ≤ 2 ^ 64 := Nat.pow_le_pow_right (by norm_num) hk
    omega
  apply le_antisymm
  · exact (bitsLen_le_iff _ _ hlt).2 (by omega)
  · by_contra hcon
    have h1 : bitsLen (2 ^ k - 1) ≤ k - 1 := by omega
    have h2 := (bitsLen_le_iff _ _ hlt).1 h1
    have h3 : 2 ^ k = 2 ^ (k - 1) * 2 := by
      rw [← pow_succ]; congr 1; omega
    omega

/-! ## Range deaggregation on concrete ranges -/

/-- C1 (evaluation at the failing input): for the range `[1, 1]` the loop of
`deaggregate` prints the single block `0.0.0.1/31`; that block is not
CIDR-aligned and its two addresses are not the range `[1, 1]`. -/
theorem C1_deaggregate_single_odd_address :
    deaggregate 1 1 1 = some [(1, 31)] ∧ ¬ blockAligned (1, 31) ∧
      ¬ coversExactly [(1, 31)] 1 1 := by
  refine ⟨by decide, by decide, ?_⟩
  intro h
  have h2 := (h 2).1 ⟨(1, 31), by simp, by decide⟩
  omega

/-- C2 (evaluation at the failing inputs): for the aligned range
`10.0.0.0 - 10.0.0.255` the first block printed is `10.0.0.0/32`, so the
output is never the single block `10.0.0.0/24`; and for the one-address range
at `192.168.0.1` the block printed is `192.168.0.1/31`, not `/32`. -/
theorem C2_deaggregate_aligned_range_not_one_block :
    (∀ fuel, deaggregate fuel 0x0A000000 0x0A0000FF ≠ some [(0x0A000000, 24)]) ∧
      (∀ fuel rest, deaggregate fuel 0x0A000000 0x0A0000FF = some rest →
        rest.head? = some (0x0A000000, 32)) ∧
      deaggregate 1 0xC0A80001 0xC0A80001 = some [(0xC0A80001, 31)] := by
  have hstep : deaggStep 0x0A000000 0x0A0000FF 32 0 = 0 := by decide
  refine ⟨?_, ?_, by decide⟩
  · intro fuel
    cases fuel with
    | zero => simp [deaggregate, deaggregateLoop]
    | succ f =>
      simp only [deaggregate, deaggregateLoop, hstep]
      cases deaggregateLoop 0x0A0000FF f (add32 0x0A000000 (shl32 1 0)) <;> simp
  · intro fuel rest h
    cases fuel with
    | zero => simp [deaggregate, deaggregateLoop] at h
    | succ f =>
      simp only [deaggregate, deaggregateLoop, hstep] at h
      cases hd : deaggregateLoop 0x0A0000FF f (add32 0x0A000000 (shl32 1 0)) with
      | none => rw [hd] at h; simp at h
      | some l => rw [hd] at h; simp at h; subst h; simp

/-- C3 (evaluation at the failing input): for the range `[0, 3]` the loop
prints three blocks, `0/32`, `1/31` and `3/31`, although the single aligned
block `0/30` covers exactly `[0, 3]`; the first block `0/32` could be
enlarged to `0/30` without passing `end` or breaking alignment. -/
theorem C3_deaggregate_not_minimal :
    deaggregate 3 0 3 = some [(0, 32), (1, 31), (3, 31)] ∧
      blockAligned (0, 30) ∧ coversExactly [(0, 30)] 0 3 ∧
      [((0 : Nat), (30 : Int))].length < [((0 : Nat), (32 : Int)), (1, 31), (3, 31)].length := by
  refine ⟨by decide, by decide, ?_, by decide⟩
  intro x
  simp only [List.mem_singleton, exists_eq_left, inBlock]
  have : (2 : Nat) ^ (32 - (30 : Int)).toNat = 4 := by decide
  rw [this]
  omega

/-- C4 (evaluation at the failing input): for the parent `192.168.1.0/24` and
the requests `[2, 100]` the block reported under heading 1 (2 hosts) is the
`/25` sized for the second request, and the block reported under heading 2
(100 hosts) is a `/30`, although the request needs a `/25`. -/
theorem C4_report_pairs_heading_with_sorted_block :
    (splitNetwork 0xC0A80100 24 [2, 100]).reports =
        [{ index := 1, requested := 2, net := 0xC0A80100, mask := 25 },
         { index := 2, requested := 100, net := 0xC0A80180, mask := 30 }] ∧
      size2BitCountMask (round2PowerOf2 (2 + 2)) = 30 ∧
      size2BitCountMask (round2PowerOf2 (100 + 2)) = 25 := by
  refine ⟨by decide, by decide, by decide⟩

/-! ## Rounding to a power of two -/

theorem wrapInt_of_range (x : Int) (h1 : -2 ^ 63 ≤ x) (h2 : x < 2 ^ 63) : wrapInt x = x := by
  unfold wrapInt; omega

theorem toUint_natCast (x : Nat) (hx : x < 2 ^ 64) : toUint (x : Int) = x := by
  unfold toUint
  have : ((x : Int)) % 2 ^ 64 = x := by omega
  rw [this]; simp

/-- For `1 ≤ n ≤ 2 ^ 62` the rounding does not overflow: the result is
`2 ^ k` for the bit length `k` of `n - 1`. -/
theorem round2PowerOf2_eq (x : Nat) (hx : x < 2 ^ 62) :
    round2PowerOf2 ((x : Int) + 1) = 2 ^ bitsLen x ∧ bitsLen x ≤ 62 := by
  have hx64 : x < 2 ^ 64 := by omega
  have hk : bitsLen x ≤ 62 := (bitsLen_le_iff x 62 hx64).2 hx
  refine ⟨?_, hk⟩
  unfold round2PowerOf2
  rw [if_neg (by omega)]
  have e : (x : Int) + 1 - 1 = x := by omega
  rw [e, toUint_natCast x hx64]
  apply wrapInt_of_range
  · have : (0 : Int) ≤ 2 ^ bitsLen x := by positivity
    omega
  · have h := Nat.pow_le_pow_right (by norm_num : 0 < 2) hk
    have h2 : ((2 ^ bitsLen x : Nat) : Int) ≤ ((2 ^ 62 : Nat) : Int) := by exact_mod_cast h
    push_cast at h2
    omega

theorem size2BitCountMask_pow (k : Nat) (hk : k ≤ 63) :
    size2BitCountMask ((2 : Int) ^ k) = 32 - (k : Int) := by
  have hpos : 0 < 2 ^ k := Nat.two_pow_pos k
  have hle : 2 ^ k ≤ 2 ^ 63 := Nat.pow_le_pow_right (by norm_num) hk
  have hposI : (0 : Int) < 2 ^ k := by positivity
  unfold size2BitCountMask
  rw [if_neg (by omega)]
  have e : ((2 : Int) ^ k - 1) = ((2 ^ k - 1 : Nat) : Int) := by
    rw [Nat.cast_sub hpos]; push_cast; rfl
  rw [e, toUint_natCast _ (by omega), bitsLen_pow_sub_one k (by omega)]

/-- C5: for a capacity `0 ≤ c ≤ 2 ^ 32 - 2` the block size
`round2PowerOf2 (c + 2)` is a power of two, is at least `c + 2`, and is below
every other power of two that is at least `c + 2`; the block's mask length
`p = size2BitCountMask (round2PowerOf2 (c + 2))` lies in `[0, 31]` and
`2 ^ (32 - p)` is the block size. Capacity 2 gives size 4 and length 30, and
`round2PowerOf2 n = 1` for every `n ≤ 0`. -/
theorem C5_round2PowerOf2_least_power (c : Int) (h0 : 0 ≤ c) (h1 : c ≤ 2 ^ 32 - 2) :
    (∃ k : Nat, round2PowerOf2 (c + 2) = 2 ^ k) ∧
      c + 2 ≤ round2PowerOf2 (c + 2) ∧
      (∀ j : Nat, c + 2 ≤ 2 ^ j → round2PowerOf2 (c + 2) ≤ 2 ^ j) ∧
      0 ≤ size2BitCountMask (round2PowerOf2 (c + 2)) ∧
      size2BitCountMask (round2PowerOf2 (c + 2)) ≤ 31 ∧
      (2 : Int) ^ (32 - size2BitCountMask (round2PowerOf2 (c + 2))).toNat =
        round2PowerOf2 (c + 2) ∧
      (round2PowerOf2 (2 + 2) = 4 ∧ size2BitCountMask 4 = 30) ∧
      ∀ n : Int, n ≤ 0 → round2PowerOf2 n = 1 := by
  obtain ⟨x, hx⟩ := Int.eq_ofNat_of_zero_le (by omega : 0 ≤ c + 1)
  have hx32 : x < 2 ^ 32 := by omega
  have hx0 : x ≠ 0 := by omega
  have hx64 : x < 2 ^ 64 := by omega
  have hc : c + 2 = (x : Int) + 1 := by omega
  obtain ⟨hr, -⟩ := round2PowerOf2_eq x (by omega)
  have hk32 : bitsLen x ≤ 32 := (bitsLen_le_iff x 32 hx64).2 hx32
  have hkpos : 0 < bitsLen x := bitsLen_pos x hx64 hx0
  have hlt : x < 2 ^ bitsLen x := lt_pow_bitsLen x hx64
  have hge : 2 ^ (bitsLen x - 1) ≤ x := pow_bitsLen_pred_le x hx64 hx0
  rw [hc, hr, size2BitCountMask_pow _ (by omega)]
  refine ⟨⟨_, rfl⟩, ?_, ?_, by omega, by omega, ?_, ⟨by decide, by decide⟩, ?_⟩
  · have : ((x : Int)) < ((2 ^ bitsLen x : Nat) : Int) := by exact_mod_cast hlt
    push_cast at this
    omega
  · intro j hj
    have hj2 : x < 2 ^ j := by
      have : ((x : Int)) + 1 ≤ ((2 ^ j : Nat) : Int) := by push_cast; exact hj
      omega
    have hkj : bitsLen x ≤ j := (bitsLen_le_iff x j hx64).2 hj2
    exact pow_le_pow_right₀ (by norm_num) hkj
  · congr 1
    omega
  · intro n hn
    unfold round2PowerOf2
    rw [if_pos hn]

/-- C5 at capacity 100: the block size is 128 and the mask length is 25. -/
theorem C5_round2PowerOf2_least_power_witness :
    (0 : Int) ≤ 100 ∧ (100 : Int) ≤ 2 ^ 32 - 2 ∧
      (100 : Int) + 2 ≤ round2PowerOf2 (100 + 2) ∧
      (2 : Int) ^ (32 - size2BitCountMask (round2PowerOf2 (100 + 2))).toNat =
        round2PowerOf2 (100 + 2) :=
  ⟨by decide, by decide,
    (C5_round2PowerOf2_least_power 100 (by decide) (by decide)).2.1,
    (C5_round2PowerOf2_least_power 100 (by decide) (by decide)).2.2.2.2.2.1⟩

/-! ## The sorting loops are a selection sort -/

theorem getElem?_mid (pre : List NetInfo) (x : NetInfo) (post : List NetInfo) :
    (pre ++ x :: post)[pre.length]? = some x := by
  rw [List.getElem?_append_right (le_refl _)]
  simp

theorem set_mid (pre : List NetInfo) (x y : NetInfo) (post : List NetInfo) :
    (pre ++ x :: post).set pre.length y = pre ++ y :: post := by
  induction pre with
  | nil => rfl
  | cons a pre ih => simp [ih]

theorem swapIfLess_eq (pre : List NetInfo) (x : NetInfo) (done : List NetInfo)
    (y : NetInfo) (ys : List NetInfo) :
    swapIfLess (pre ++ x :: (done ++ y :: ys)) pre.length (pre.length + 1 + done.length) =
      if x.size < y.size then pre ++ y :: (done ++ x :: ys)
      else pre ++ x :: (done ++ y :: ys) := by
  have hj : pre.length + 1 + done.length = (pre ++ x :: done).length := by simp; omega
  have e1 : pre ++ x :: (done ++ y :: ys) = (pre ++ x :: done) ++ y :: ys := by simp
  have hk : (pre ++ x :: (done ++ y :: ys))[pre.length]? = some x := getElem?_mid _ _ _
  have hjj : (pre ++ x :: (done ++ y :: ys))[pre.length + 1 + done.length]? = some y := by
    rw [hj, e1]; exact getElem?_mid _ _ _
  unfold swapIfLess
  rw [hk, hjj]
  simp only
  split
  · rw [set_mid]
    have hj2 : pre.length + 1 + done.length = (pre ++ y :: done).length := by simp; omega
    have e2 : pre ++ y :: (done ++ y :: ys) = (pre ++ y :: done) ++ y :: ys := by simp
    rw [hj2, e2, set_mid]; simp
  · rfl

theorem sortInner_eq (todo : List NetInfo) : ∀ (fuel : Nat) (x : NetInfo)
    (pre done : List NetInfo), todo.length ≤ fuel →
    sortInner pre.length fuel (pre.length + 1 + done.length) (pre ++ x :: (done ++ todo)) =
      pre ++ (selPass x todo).1 :: (done ++ (selPass x todo).2) := by
  induction todo with
  | nil =>
    intro fuel x pre done _
    cases fuel with
    | zero => simp [sortInner, selPass]
    | succ f =>
      unfold sortInner
      rw [if_neg (by simp; omega)]
      simp [selPass]
  | cons y ys ih =>
    intro fuel x pre done hf
    cases fuel with
    | zero => simp at hf
    | succ f =>
      unfold sortInner
      rw [if_pos (by simp; omega), swapIfLess_eq]
      have hf2 : ys.length ≤ f := by simpa using hf
      by_cases hlt : x.size < y.size
      · rw [if_pos hlt]
        have := ih f y pre (done ++ [x]) hf2
        simp only [List.length_append, List.length_singleton, List.append_assoc,
          List.singleton_append] at this
        rw [show pre.length + 1 + done.length + 1 = pre.length + 1 + (done.length + 1) by omega,
          this]
        simp [selPass, hlt]
      · rw [if_neg hlt]
        have := ih f x pre (done ++ [y]) hf2
        simp only [List.length_append, List.length_singleton, List.append_assoc,
          List.singleton_append] at this
        rw [show pre.length + 1 + done.length + 1 = pre.length + 1 + (done.length + 1) by omega,
          this]
        simp [selPass, hlt]

theorem selPass_length (ys : List NetInfo) : ∀ x, (selPass x ys).2.length = ys.length := by
  induction ys with
  | nil => intro x; rfl
  | cons y ys ih =>
    intro x
    unfold selPass
    split <;> simp [ih]

theorem sortOuter_eq (fuel : Nat) : ∀ (pre rest : List NetInfo),
    sortOuter fuel pre.length (pre ++ rest) = pre ++ selSort fuel rest := by
  induction fuel with
  | zero => intro pre rest; simp [sortOuter, selSort]
  | succ f ih =>
    intro pre rest
    unfold sortOuter
    cases rest with
    | nil => simp [selSort]
    | cons x xs =>
      cases xs with
      | nil =>
        rw [if_neg (by simp)]
        cases f <;> simp [selSort, selPass]
      | cons y ys =>
        rw [if_pos (by simp)]
        have h := sortInner_eq (y :: ys) (pre ++ x :: y :: ys).length x pre [] (by simp; omega)
        simp only [List.length_nil, Nat.add_zero, List.nil_append] at h
        rw [h]
        have h2 := ih (pre ++ [(selPass x (y :: ys)).1]) (selPass x (y :: ys)).2
        simp only [List.length_append, List.length_singleton, List.append_assoc,
          List.singleton_append] at h2
        rw [h2]
        simp [selSort]

theorem sortNets_eq (nets : List NetInfo) : sortNets nets = selSort nets.length nets := by
  have := sortOuter_eq nets.length [] nets
  simpa [sortNets] using this

theorem selPass_perm (ys : List NetInfo) : ∀ x,
    List.Perm ((selPass x ys).1 :: (selPass x ys).2) (x :: ys) := by
  induction ys with
  | nil => intro x; simp [selPass]
  | cons y ys ih =>
    intro x
    unfold selPass
    split
    · exact (List.Perm.swap _ _ _).trans ((ih y).cons x)
    · exact ((List.Perm.swap _ _ _).trans ((ih x).cons y)).trans (List.Perm.swap _ _ _)

theorem selPass_head_ge (ys : List NetInfo) : ∀ x,
    x.size ≤ (selPass x ys).1.size ∧ ∀ z ∈ (selPass x ys).2, z.size ≤ (selPass x ys).1.size := by
  induction ys with
  | nil => intro x; simp [selPass]
  | cons y ys ih =>
    intro x
    unfold selPass
    split
    · rename_i h
      obtain ⟨h1, h2⟩ := ih y
      refine ⟨by simp only; omega, ?_⟩
      intro z hz
      simp only [List.mem_cons] at hz
      rcases hz with rfl | hz
      · simp only; omega
      · exact h2 z hz
    · rename_i h
      obtain ⟨h1, h2⟩ := ih x
      refine ⟨h1, ?_⟩
      intro z hz
      simp only [List.mem_cons] at hz
      rcases hz with rfl | hz
      · simp only; omega
      · exact h2 z hz

theorem selSort_perm (fuel : Nat) : ∀ l : List NetInfo, List.Perm (selSort fuel l) l := by
  induction fuel with
  | zero => intro l; simp [selSort]
  | succ f ih =>
    intro l
    cases l with
    | nil => simp [selSort]
    | cons x xs =>
      simp only [selSort]
      exact ((ih _).cons _).trans (selPass_perm xs x)

theorem selSort_sorted (fuel : Nat) : ∀ l : List NetInfo, l.length ≤ fuel →
    List.Pairwise (fun a b => b.size ≤ a.size) (selSort fuel l) := by
  induction fuel with
  | zero =>
    intro l hl
    have : l = [] := List.length_eq_zero.1 (by omega)
    subst this; simp [selSort]
  | succ f ih =>
    intro l hl
    cases l with
    | nil => simp [selSort]
    | cons x xs =>
      simp only [selSort, List.pairwise_cons]
      refine ⟨?_, ih _ (by rw [selPass_length]; simpa using hl)⟩
      intro z hz
      exact (selPass_head_ge xs x).2 z ((selSort_perm f _).mem_iff.1 hz)

theorem sortNets_perm (nets : List NetInfo) : List.Perm (sortNets nets) nets := by
  rw [sortNets_eq]; exact selSort_perm _ _

theorem sortNets_sorted (nets : List NetInfo) :
    List.Pairwise (fun a b => b.size ≤ a.size) (sortNets nets) := by
  rw [sortNets_eq]; exact selSort_sorted _ _ le_rfl

/-! ## Masks and alignment -/

theorem cidrToMask_eq (q : Int) (h0 : 0 ≤ q) (h32 : q ≤ 32) :
    cidrToMask q = 2 ^ 32 - 2 ^ (32 - q).toNat := by
  unfold cidrToMask
  rw [if_neg (by omega)]
  have hk : (32 - q).toNat ≤ 32 := by omega
  generalize (32 - q).toNat = k at hk
  interval_cases k <;> rfl

theorem testBit_high_mask (k i : Nat) (hk : k ≤ 32) :
    (2 ^ 32 - 2 ^ k).testBit i = (decide (i < 32) && !decide (i < k)) := by
  have hpos : 0 < 2 ^ k := Nat.two_pow_pos k
  have hle : 2 ^ k ≤ 2 ^ 32 := Nat.pow_le_pow_right (by norm_num) hk
  have e : 2 ^ 32 - 2 ^ k = 2 ^ 32 - ((2 ^ k - 1) + 1) := by omega
  rw [e, Nat.testBit_two_pow_sub_succ (by omega), Nat.testBit_two_pow_sub_one]

theorem land_mask_iff (a k : Nat) (ha : a < 2 ^ 32) (hk : k ≤ 32) :
    a &&& (2 ^ 32 - 2 ^ k) = a ↔ a % 2 ^ k = 0 := by
  constructor
  · intro h
    apply Nat.eq_of_testBit_eq
    intro i
    rw [Nat.testBit_mod_two_pow, Nat.zero_testBit]
    by_cases hi : i < k
    · have := congrArg (fun t => t.testBit i) h
      simp only [Nat.testBit_and, testBit_high_mask k i hk] at this
      simp only [hi, decide_True, Bool.not_true, Bool.and_false] at this
      simp [← this]
    · simp [hi]
  · intro h
    apply Nat.eq_of_testBit_eq
    intro i
    rw [Nat.testBit_and, testBit_high_mask k i hk]
    by_cases hi : i < k
    · have h1 : (a % 2 ^ k).testBit i = a.testBit i := by
        rw [Nat.testBit_mod_two_pow]; simp [hi]
      rw [h] at h1
      simp [← h1]
    · by_cases hi2 : i < 32
      · simp [hi, hi2]
      · have : a.testBit i = false := by
          apply Nat.testBit_lt_two_pow
          exact lt_of_lt_of_le ha (Nat.pow_le_pow_right (by norm_num) (by omega))
        simp [this]

theorem lor_eq_add (a b k : Nat) (ha : a % 2 ^ k = 0) (hb : b < 2 ^ k) : a ||| b = a + b := by
  have e : a = 2 ^ k * (a / 2 ^ k) := by
    have := Nat.div_add_mod a (2 ^ k)
    omega
  rw [e, Nat.mul_add_lt_is_or hb]

/-- Alignment to a mask length, as the code tests it, is divisibility by the
block size. -/
theorem aligned_iff (a : Nat) (q : Int) (ha : a < 2 ^ 32) (h0 : 0 ≤ q) (h32 : q ≤ 32) :
    a &&& cidrToMask q = a ↔ a % 2 ^ (32 - q).toNat = 0 := by
  rw [cidrToMask_eq q h0 h32]
  exact land_mask_iff a _ ha (by omega)

theorem not32_cidrToMask (q : Int) (h0 : 0 ≤ q) (h32 : q ≤ 32) :
    not32 (cidrToMask q) = 2 ^ (32 - q).toNat - 1 := by
  rw [cidrToMask_eq q h0 h32]
  have hk : (32 - q).toNat ≤ 32 := by omega
  have hpos : 0 < 2 ^ (32 - q).toNat := Nat.two_pow_pos _
  have hle : 2 ^ (32 - q).toNat ≤ 2 ^ 32 := Nat.pow_le_pow_right (by norm_num) hk
  unfold not32
  omega

/-- The broadcast address of an aligned network is its last address. -/
theorem broadcast_eq (a : Nat) (q : Int) (h0 : 0 ≤ q) (h32 : q ≤ 32)
    (hal : a % 2 ^ (32 - q).toNat = 0) :
    a ||| not32 (cidrToMask q) = a + 2 ^ (32 - q).toNat - 1 := by
  have hpos : 0 < 2 ^ (32 - q).toNat := Nat.two_pow_pos _
  rw [not32_cidrToMask q h0 h32, lor_eq_add a _ _ hal (by omega)]
  omega

/-! ## Sizes and mask lengths of the blocks built by `splitNetwork` -/

theorem wrapInt_range (x : Int) : -2 ^ 63 ≤ wrapInt x ∧ wrapInt x < 2 ^ 63 := by
  unfold wrapInt; omega

theorem pow_le_of_le_62 (k : Nat) (hk : k ≤ 62) : (2 : Int) ^ k ≤ 2 ^ 62 :=
  pow_le_pow_right₀ (by norm_num) hk

theorem round2PowerOf2_cases (m : Int) (h2 : m < 2 ^ 63) :
    round2PowerOf2 m = -2 ^ 63 ∨ ∃ k : Nat, k ≤ 62 ∧ round2PowerOf2 m = 2 ^ k := by
  by_cases hm : m ≤ 0
  · right
    refine ⟨0, by omega, ?_⟩
    unfold round2PowerOf2
    rw [if_pos hm]; rfl
  · obtain ⟨x, hx⟩ := Int.eq_ofNat_of_zero_le (by omega : 0 ≤ m - 1)
    have hx63 : x < 2 ^ 63 := by omega
    have hL : bitsLen x ≤ 63 := (bitsLen_le_iff x 63 (by omega)).2 hx63
    unfold round2PowerOf2
    rw [if_neg hm, hx, toUint_natCast x (by omega)]
    by_cases h62 : bitsLen x ≤ 62
    · right
      refine ⟨bitsLen x, h62, ?_⟩
      have := pow_le_of_le_62 _ h62
      have hp : (0 : Int) < 2 ^ bitsLen x := by positivity
      exact wrapInt_of_range _ (by omega) (by omega)
    · left
      have : bitsLen x = 63 := by omega
      rw [this]; decide

theorem buildNets_sizeOK (sizes : List Int) : ∀ n ∈ buildNets sizes, SizeOK n := by
  intro n hn
  simp only [buildNets, List.mem_map] at hn
  obtain ⟨c, -, rfl⟩ := hn
  exact ⟨rfl, round2PowerOf2_cases _ (wrapInt_range _).2⟩

theorem sortNets_sizeOK (sizes : List Int) : ∀ n ∈ sortNets (buildNets sizes), SizeOK n := by
  intro n hn
  exact buildNets_sizeOK sizes n ((sortNets_perm _).mem_iff.1 hn)

theorem SizeOK.mask_le (n : NetInfo) (h : SizeOK n) : n.mask ≤ 32 := by
  obtain ⟨hm, hs | ⟨k, hk, hs⟩⟩ := h
  · rw [hm, hs]; decide
  · rw [hm, hs, size2BitCountMask_pow k (by omega)]; omega

/-! ## The packing loop -/

theorem assignNets_mem (l : List NetInfo) : ∀ (cur : Nat) (b : NetInfo),
    b ∈ (assignNets cur l).1 → ∃ n ∈ l, n.size = b.size ∧ n.mask = b.mask := by
  induction l with
  | nil => intro cur b hb; simp [assignNets] at hb
  | cons n rest ih =>
    intro cur b hb
    simp only [assignNets, List.mem_cons] at hb
    rcases hb with rfl | hb
    · exact ⟨n, by simp, rfl, rfl⟩
    · obtain ⟨n', hn', h⟩ := ih _ b hb
      exact ⟨n', by simp [hn'], h⟩

theorem add32_lt (x y : Nat) : add32 x y < 2 ^ 32 := by
  unfold add32; omega

theorem assignNets_lt (l : List NetInfo) : ∀ (cur : Nat), cur < 2 ^ 32 →
    ∀ b ∈ (assignNets cur l).1, b.net < 2 ^ 32 := by
  induction l with
  | nil => intro cur _ b hb; simp [assignNets] at hb
  | cons n rest ih =>
    intro cur hc b hb
    simp only [assignNets, List.mem_cons] at hb
    rcases hb with rfl | hb
    · exact hc
    · exact ih _ (add32_lt _ _) b hb

theorem add32_mod (x y j : Nat) (hj : j ≤ 32) (hx : x % 2 ^ j = 0) (hy : y % 2 ^ j = 0) :
    add32 x y % 2 ^ j = 0 := by
  unfold add32
  have hd : 2 ^ j ∣ 2 ^ 32 := Nat.pow_dvd_pow 2 hj
  rw [Nat.mod_mod_of_dvd _ hd]
  have h1 : 2 ^ j ∣ x := Nat.dvd_of_mod_eq_zero hx
  have h2 : 2 ^ j ∣ y := Nat.dvd_of_mod_eq_zero hy
  exact Nat.mod_eq_zero_of_dvd (Nat.dvd_add h1 h2)

/-- A block is placed at a multiple of `2 ^ j` when the start is one and
every entry at least as large advances the address by a multiple of `2 ^ j`. -/
theorem assignNets_mod (j : Nat) (hj : j ≤ 32) (l : List NetInfo) : ∀ (cur : Nat),
    cur % 2 ^ j = 0 → List.Pairwise (fun a b => b.size ≤ a.size) l →
    ∀ b ∈ (assignNets cur l).1,
      (∀ n ∈ l, b.size ≤ n.size → toUint32 n.size % 2 ^ j = 0) → b.net % 2 ^ j = 0 := by
  induction l with
  | nil => intro cur _ _ b hb; simp [assignNets] at hb
  | cons n rest ih =>
    intro cur hc hs b hb hadv
    simp only [assignNets, List.mem_cons] at hb
    rw [List.pairwise_cons] at hs
    rcases hb with rfl | hb
    · exact hc
    · obtain ⟨n', hn', hsz, -⟩ := assignNets_mem rest _ b hb
      have hle : b.size ≤ n.size := by rw [← hsz]; exact hs.1 n' hn'
      have hn : toUint32 n.size % 2 ^ j = 0 := hadv n (by simp) hle
      exact ih _ (add32_mod _ _ j hj hc hn) hs.2 b hb
        (fun m hm hbm => hadv m (by simp [hm]) hbm)

theorem toUint32_pow_mod (k j : Nat) (hjk : j ≤ k) (hj : j ≤ 32) :
    toUint32 ((2 : Int) ^ k) % 2 ^ j = 0 := by
  unfold toUint32
  have e : ((2 : Int) ^ k) % 2 ^ 32 = ((2 ^ k % 2 ^ 32 : Nat) : Int) := by push_cast; rfl
  rw [e, Int.toNat_ofNat]
  have hd : 2 ^ j ∣ 2 ^ 32 := Nat.pow_dvd_pow 2 hj
  rw [Nat.mod_mod_of_dvd _ hd]
  exact Nat.mod_eq_zero_of_dvd (Nat.pow_dvd_pow 2 hjk)

/-- Every packed block whose mask length is at least the parent's lies on a
multiple of its own size. -/
theorem packed_mod (network : Nat) (mask1 : Int) (sizes : List Int)
    (h0 : 0 ≤ mask1) (hal : network % 2 ^ (32 - mask1).toNat = 0) :
    ∀ b ∈ (splitNetwork network mask1 sizes).nets, mask1 ≤ b.mask →
      b.net % 2 ^ (32 - b.mask).toNat = 0 := by
  intro b hb hq
  simp only [splitNetwork] at hb
  obtain ⟨n', hn', hsz, hmk⟩ := assignNets_mem _ _ b hb
  have hok := sortNets_sizeOK sizes n' hn'
  have hq32 : b.mask ≤ 32 := by rw [← hmk]; exact SizeOK.mask_le n' hok
  have hjle : (32 - b.mask).toNat ≤ (32 - mask1).toNat := by omega
  have hcur : network % 2 ^ (32 - b.mask).toNat = 0 := by
    have hd : 2 ^ (32 - b.mask).toNat ∣ 2 ^ (32 - mask1).toNat := Nat.pow_dvd_pow 2 hjle
    exact Nat.mod_eq_zero_of_dvd (hd.trans (Nat.dvd_of_mod_eq_zero hal))
  apply assignNets_mod _ (by omega) _ network hcur (sortNets_sorted _) b hb
  intro n hn hle
  have hokn := sortNets_sizeOK sizes n hn
  obtain ⟨hm, hs | ⟨k, hk, hs⟩⟩ := hok
  · have : b.mask = 32 := by rw [← hmk, hm, hs]; decide
    rw [this]; simp [Nat.mod_one]
  · have hbm : b.mask = 32 - (k : Int) := by
      rw [← hmk, hm, hs, size2BitCountMask_pow k (by omega)]
    have hj : (32 - b.mask).toNat = k := by omega
    rw [hj]
    obtain ⟨-, hs2 | ⟨k2, hk2, hs2⟩⟩ := hokn
    · rw [hs2]; simp [toUint32]
    · rw [hs2]
      apply toUint32_pow_mod _ _ _ (by omega)
      rw [← hsz, hs, hs2] at hle
      by_contra hlt
      have : (2 : Int) ^ k2 < 2 ^ k := pow_lt_pow_right₀ (by norm_num) (by omega)
      omega

/-! ## Alignment of the packed blocks -/

/-- C7 as stated fails: in the parent `192.168.1.0/24` the request for 1000
hosts is packed as `192.168.1.0/22`, whose address is not a multiple of
1024. -/
theorem C7_counterexample_block_larger_than_parent :
    ¬ ∀ (network : Nat) (mask1 : Int) (sizes : List Int),
      network < 2 ^ 32 → 0 ≤ mask1 → mask1 ≤ 32 →
      network &&& cidrToMask mask1 = network →
      ∀ b ∈ (splitNetwork network mask1 sizes).nets,
        b.net &&& cidrToMask b.mask = b.net := by
  intro h
  have h1 := h 0xC0A80100 24 [1000] (by decide) (by decide) (by decide) (by decide)
    { size := 1024, net := 0xC0A80100, mask := 22 } (by decide)
  revert h1
  decide

/-- C7, amended: in an aligned parent `(network, mask1)` every packed block
whose mask length `q` is at least `mask1` (a block no larger than the parent)
is aligned: `a & cidrToMask(q) = a`, and `a` is a multiple of
`2 ^ (32 - q)`. This holds for every list of requested capacities. -/
theorem C7_packed_blocks_aligned (network : Nat) (mask1 : Int) (sizes : List Int)
    (hn : network < 2 ^ 32) (h0 : 0 ≤ mask1) (h32 : mask1 ≤ 32)
    (hal : network &&& cidrToMask mask1 = network) :
    ∀ b ∈ (splitNetwork network mask1 sizes).nets, mask1 ≤ b.mask →
      b.net &&& cidrToMask b.mask = b.net ∧ b.net % 2 ^ (32 - b.mask).toNat = 0 := by
  intro b hb hq
  have hal2 := (aligned_iff network mask1 hn h0 h32).1 hal
  have hmod := packed_mod network mask1 sizes h0 hal2 b hb hq
  have hlt : b.net < 2 ^ 32 := assignNets_lt _ network hn b hb
  obtain ⟨n', hn', -, hmk⟩ := assignNets_mem _ _ b hb
  have hq32 : b.mask ≤ 32 := by
    rw [← hmk]; exact SizeOK.mask_le n' (sortNets_sizeOK sizes n' hn')
  exact ⟨(aligned_iff b.net b.mask hlt (by omega) hq32).2 hmod, hmod⟩

/-- C7 (amended) at the parent `192.168.1.0/24` with requests
`[10, 50, 20, 50, 2]`. -/
theorem C7_packed_blocks_aligned_witness :
    (0xC0A80100 : Nat) &&& cidrToMask 24 = 0xC0A80100 ∧
      ∀ b ∈ (splitNetwork 0xC0A80100 24 [10, 50, 20, 50, 2]).nets, (24 : Int) ≤ b.mask →
        b.net &&& cidrToMask b.mask = b.net ∧ b.net % 2 ^ (32 - b.mask).toNat = 0 :=
  ⟨by decide,
    C7_packed_blocks_aligned 0xC0A80100 24 [10, 50, 20, 50, 2] (by decide) (by decide)
      (by decide) (by decide)⟩

/-! ## Packing without wrap-around -/

theorem assignNets_exact (l : List NetInfo) : ∀ cur : Nat,
    (∀ n ∈ l, 0 < n.size) → (cur : Int) + (l.map NetInfo.size).sum ≤ 2 ^ 32 →
    (∀ b ∈ (assignNets cur l).1,
        cur ≤ b.net ∧ (b.net : Int) + b.size ≤ cur + (l.map NetInfo.size).sum) ∧
      List.Pairwise (fun a b : NetInfo => (a.net : Int) + a.size ≤ b.net)
        (assignNets cur l).1 := by
  induction l with
  | nil => intro cur _ _; simp [assignNets]
  | cons n rest ih =>
    intro cur hpos hsum
    have hn : 0 < n.size := hpos n (by simp)
    have hrest : ∀ m ∈ rest, 0 < m.size := fun m hm => hpos m (by simp [hm])
    have hnn : 0 ≤ (rest.map NetInfo.size).sum := by
      apply List.sum_nonneg
      intro x hx
      simp only [List.mem_map] at hx
      obtain ⟨m, hm, rfl⟩ := hx
      exact le_of_lt (hrest m hm)
    simp only [List.map_cons, List.sum_cons] at hsum ⊢
    cases rest with
    | nil =>
      simp only [assignNets, List.map_nil, List.sum_nil, List.mem_singleton, forall_eq,
        List.pairwise_cons, List.not_mem_nil, false_implies, implies_true, true_and,
        List.Pairwise.nil, and_true]
      omega
    | cons m rest2 =>
      have hm : 0 < m.size := hrest m (by simp)
      have hnn2 : 0 ≤ (rest2.map NetInfo.size).sum := by
        apply List.sum_nonneg
        intro x hx
        simp only [List.mem_map] at hx
        obtain ⟨m', hm', rfl⟩ := hx
        exact le_of_lt (hrest m' (by simp [hm']))
      simp only [List.map_cons, List.sum_cons] at hsum hnn ⊢
      have hadv : add32 cur (toUint32 n.size) = cur + n.size.toNat := by
        unfold add32 toUint32
        have e : n.size % 2 ^ 32 = n.size := by omega
        rw [e]
        omega
      have hcur : ((add32 cur (toUint32 n.size) : Nat) : Int) = cur + n.size := by
        rw [hadv]; push_cast; omega
      obtain ⟨ih1, ih2⟩ := ih (add32 cur (toUint32 n.size)) hrest (by
        rw [hcur]; simp only [List.map_cons, List.sum_cons]; omega)
      simp only [List.map_cons, List.sum_cons] at ih1
      refine ⟨?_, ?_⟩
      · intro b hb
        rw [assignNets] at hb
        simp only [List.mem_cons] at hb
        rcases hb with rfl | hb
        · simp only; constructor <;> omega
        · have := ih1 b (by simpa using hb)
          rw [hadv] at this
          constructor
          · omega
          · have h2 := this.2
            push_cast at h2
            omega
      · rw [assignNets, List.pairwise_cons]
        refine ⟨?_, ih2⟩
        intro b hb
        have := (ih1 b hb).1
        rw [hadv] at this
        simp only
        omega

theorem buildNets_bounded (sizes : List Int) (hcap : ∀ c ∈ sizes, 0 ≤ c ∧ c ≤ 2 ^ 62 - 2) :
    ∀ n ∈ buildNets sizes, ∃ k : Nat, 1 ≤ k ∧ k ≤ 62 ∧ n.size = 2 ^ k ∧
      n.mask = 32 - (k : Int) := by
  intro n hn
  simp only [buildNets, List.mem_map] at hn
  obtain ⟨c, hc, rfl⟩ := hn
  obtain ⟨hc0, hc1⟩ := hcap c hc
  obtain ⟨x, hx⟩ := Int.eq_ofNat_of_zero_le (by omega : 0 ≤ c + 1)
  have hw : wrapInt (c + 2) = (x : Int) + 1 := by
    rw [wrapInt_of_range _ (by omega) (by omega)]; omega
  have hx62 : x < 2 ^ 62 := by omega
  obtain ⟨hr, hk⟩ := round2PowerOf2_eq x hx62
  refine ⟨bitsLen x, bitsLen_pos x (by omega) (by omega), hk, ?_, ?_⟩
  · simp only [hw, hr]
  · simp only [hw, hr]
    exact size2BitCountMask_pow _ (by omega)

theorem aligned_add_le (network k : Nat) (hk : k ≤ 32) (hn : network < 2 ^ 32)
    (hal : network % 2 ^ k = 0) : network + 2 ^ k ≤ 2 ^ 32 := by
  obtain ⟨m, hm⟩ := Nat.dvd_of_mod_eq_zero hal
  obtain ⟨M, hM⟩ : 2 ^ k ∣ 2 ^ 32 := Nat.pow_dvd_pow 2 hk
  have hpos : 0 < 2 ^ k := Nat.two_pow_pos k
  have hlt : m < M := by
    have : 2 ^ k * m < 2 ^ k * M := by omega
    exact Nat.lt_of_mul_lt_mul_left this
  have : 2 ^ k * (m + 1) ≤ 2 ^ k * M := Nat.mul_le_mul_left _ hlt
  rw [Nat.mul_add, Nat.mul_one] at this
  omega

/-- Packing without overflow: in an aligned parent `(network, mask1)`, for
capacities `0 ≤ c ≤ 2 ^ 62 - 2` whose computed block sizes sum to at most
`2 ^ (32 - mask1)`, every packed block has size `2 ^ (32 - q)` for its mask
length `q`, lies on a multiple of its size and inside `[network, broadcast]`,
and any two blocks have disjoint address sets. -/
theorem packed_blocks_well_formed_of_bounded (network : Nat) (mask1 : Int) (sizes : List Int)
    (hn : network < 2 ^ 32) (h0 : 0 ≤ mask1) (h32 : mask1 ≤ 32)
    (hal : network &&& cidrToMask mask1 = network)
    (hcap : ∀ c ∈ sizes, 0 ≤ c ∧ c ≤ 2 ^ 62 - 2)
    (hsum : ((buildNets sizes).map NetInfo.size).sum ≤ 2 ^ (32 - mask1).toNat) :
    (∀ b ∈ (splitNetwork network mask1 sizes).nets,
        b.size = 2 ^ (32 - b.mask).toNat ∧ (b.net : Int) % b.size = 0 ∧
        network ≤ b.net ∧
        (b.net : Int) + b.size - 1 ≤ (splitNetwork network mask1 sizes).broadcast) ∧
      List.Pairwise (fun a b : NetInfo =>
          ∀ x, ¬ (inBlock (a.net, a.mask) x ∧ inBlock (b.net, b.mask) x))
        (splitNetwork network mask1 sizes).nets := by
  have hal2 := (aligned_iff network mask1 hn h0 h32).1 hal
  have hperm := sortNets_perm (buildNets sizes)
  have hbnd : ∀ n ∈ sortNets (buildNets sizes), ∃ k : Nat, 1 ≤ k ∧ k ≤ 62 ∧
      n.size = 2 ^ k ∧ n.mask = 32 - (k : Int) :=
    fun n hn' => buildNets_bounded sizes hcap n (hperm.mem_iff.1 hn')
  have hpos : ∀ n ∈ sortNets (buildNets sizes), 0 < n.size := by
    intro n hn'
    obtain ⟨k, -, -, hs, -⟩ := hbnd n hn'
    rw [hs]; positivity
  have hsum2 : ((sortNets (buildNets sizes)).map NetInfo.size).sum ≤
      2 ^ (32 - mask1).toNat := by
    rw [(hperm.map NetInfo.size).sum_eq]; exact hsum
  have hfit := aligned_add_le network (32 - mask1).toNat (by omega) hn hal2
  have hfitI : (network : Int) + 2 ^ (32 - mask1).toNat ≤ 2 ^ 32 := by exact_mod_cast hfit
  obtain ⟨hex1, hex2⟩ := assignNets_exact (sortNets (buildNets sizes)) network hpos
    (by omega)
  have hbc : (splitNetwork network mask1 sizes).broadcast =
      network + 2 ^ (32 - mask1).toNat - 1 := broadcast_eq network mask1 h0 h32 hal2
  have hP : 0 < 2 ^ (32 - mask1).toNat := Nat.two_pow_pos _
  have hbcI : (((splitNetwork network mask1 sizes).broadcast : Nat) : Int) =
      network + 2 ^ (32 - mask1).toNat - 1 := by
    rw [hbc, Nat.cast_sub (by omega)]; push_cast; rfl
  have key : ∀ b ∈ (splitNetwork network mask1 sizes).nets,
      b.size = 2 ^ (32 - b.mask).toNat ∧ (b.net : Int) % b.size = 0 ∧
      network ≤ b.net ∧
      (b.net : Int) + b.size - 1 ≤ (splitNetwork network mask1 sizes).broadcast := by
    intro b hb
    obtain ⟨n', hn', hsz, hmk⟩ := assignNets_mem _ _ b hb
    obtain ⟨k, hk1, hk62, hs, hm⟩ := hbnd n' hn'
    obtain ⟨hlo, hhi⟩ := hex1 b hb
    have hbs : b.size = 2 ^ k := by rw [← hsz, hs]
    have hbm : b.mask = 32 - (k : Int) := by rw [← hmk, hm]
    have hle : (2 : Int) ^ k ≤ 2 ^ (32 - mask1).toNat := by rw [hbs] at hhi; omega
    have hk : k ≤ (32 - mask1).toNat := by
      by_contra hcon
      have : (2 : Int) ^ (32 - mask1).toNat < 2 ^ k :=
        pow_lt_pow_right₀ (by norm_num) (by omega)
      omega
    have hj : (32 - b.mask).toNat = k := by omega
    have hmod := packed_mod network mask1 sizes h0 hal2 b hb (by omega)
    rw [hj] at hmod ⊢
    refine ⟨hbs, ?_, hlo, ?_⟩
    · rw [hbs]
      have : (((b.net % 2 ^ k : Nat)) : Int) = 0 := by rw [hmod]; rfl
      push_cast at this
      exact this
    · rw [hbcI]; omega
  refine ⟨key, ?_⟩
  refine List.Pairwise.imp_of_mem ?_ hex2
  intro a b ha hb hab x hx
  obtain ⟨⟨-, hxa⟩, ⟨hxb, -⟩⟩ := hx
  simp only at hxa hxb
  have hsa := (key a ha).1
  have : ((x : Nat) : Int) < a.net + a.size := by
    rw [hsa]; exact_mod_cast hxa
  omega

/-! ## Total size and the "too small" report -/

theorem wrapInt_add_wrapInt (a b : Int) : wrapInt (wrapInt a + b) = wrapInt (a + b) := by
  unfold wrapInt; omega

theorem foldl_wrap_sum (f : Int → Int) (l : List Int) : ∀ acc : Int,
    -2 ^ 63 ≤ acc → acc < 2 ^ 63 →
    l.foldl (fun a c => wrapInt (a + f c)) acc = wrapInt (acc + (l.map f).sum) := by
  induction l with
  | nil =>
    intro acc h1 h2
    simp only [List.foldl_nil, List.map_nil, List.sum_nil, add_zero]
    exact (wrapInt_of_range acc h1 h2).symm
  | cons c rest ih =>
    intro acc h1 h2
    simp only [List.foldl_cons, List.map_cons, List.sum_cons]
    rw [ih _ (wrapInt_range _).1 (wrapInt_range _).2, wrapInt_add_wrapInt, add_assoc]

theorem neededAddresses_eq (sizes : List Int) :
    neededAddresses sizes = wrapInt (((buildNets sizes).map NetInfo.size).sum) := by
  unfold neededAddresses
  rw [foldl_wrap_sum (fun c => round2PowerOf2 (wrapInt (c + 2))) sizes 0 (by decide)
    (by decide)]
  simp [buildNets, List.map_map, Function.comp_def]

theorem bitsLen_pred_eq_clog (t : Nat) (ht : 0 < t) (h64 : t ≤ 2 ^ 64) :
    bitsLen (t - 1) = Nat.clog 2 t := by
  have hlt : t - 1 < 2 ^ 64 := by omega
  apply le_antisymm
  · rw [bitsLen_le_iff _ _ hlt]
    have := (Nat.le_pow_iff_clog_le (by norm_num : 1 < 2) (x := t) (y := Nat.clog 2 t)).2
      le_rfl
    omega
  · rw [← Nat.le_pow_iff_clog_le (by norm_num : 1 < 2)]
    have := lt_pow_bitsLen (t - 1) hlt
    omega

theorem size2BitCountMask_pos (t : Int) (ht : 0 < t) (h63 : t < 2 ^ 63) :
    size2BitCountMask t = 32 - (bitsLen (t.toNat - 1) : Int) := by
  unfold size2BitCountMask
  rw [if_neg (by omega)]
  obtain ⟨x, hx⟩ := Int.eq_ofNat_of_zero_le (by omega : 0 ≤ t - 1)
  rw [hx, toUint_natCast x (by omega)]
  have : t.toNat - 1 = x := by omega
  rw [this]

/-- The used mask and the "too small" report in terms of the accumulator
`neededAddresses`, which is the sum of the block sizes wrapped into the 64-bit
`int` (the exact sum whenever that is in range):
`usedMask = size2BitCountMask neededAddresses = 32 - ceil(log2 neededAddresses)`,
and "Network is too small" is reported exactly when
`neededAddresses > 2 ^ (32 - mask1)`. The ceiling logarithm is `Nat.clog 2`,
which is 0 below 2. -/
theorem usedMask_and_tooSmall_of_accumulator (network : Nat) (mask1 : Int) (sizes : List Int)
    (h0 : 0 ≤ mask1) (h32 : mask1 ≤ 32) :
    (splitNetwork network mask1 sizes).neededAddresses =
        wrapInt (((buildNets sizes).map NetInfo.size).sum) ∧
      (((buildNets sizes).map NetInfo.size).sum < 2 ^ 63 →
        -2 ^ 63 ≤ ((buildNets sizes).map NetInfo.size).sum →
        (splitNetwork network mask1 sizes).neededAddresses =
          ((buildNets sizes).map NetInfo.size).sum) ∧
      (splitNetwork network mask1 sizes).usedMask =
        size2BitCountMask (splitNetwork network mask1 sizes).neededAddresses ∧
      (splitNetwork network mask1 sizes).usedMask =
        32 - (Nat.clog 2 (splitNetwork network mask1 sizes).neededAddresses.toNat : Int) ∧
      ((splitNetwork network mask1 sizes).tooSmall = true ↔
        (splitNetwork network mask1 sizes).neededAddresses > 2 ^ (32 - mask1).toNat) := by
  have hrange : -2 ^ 63 ≤ neededAddresses sizes ∧ neededAddresses sizes < 2 ^ 63 := by
    rw [neededAddresses_eq]; exact wrapInt_range _
  have hP : (0 : Int) < 2 ^ (32 - mask1).toNat := by positivity
  simp only [splitNetwork, decide_eq_true_eq]
  refine ⟨neededAddresses_eq sizes, ?_, trivial, ?_, ?_⟩
  · intro h1 h2
    rw [neededAddresses_eq]; exact wrapInt_of_range _ h2 h1
  · by_cases ht : 0 < neededAddresses sizes
    · rw [size2BitCountMask_pos _ ht hrange.2,
        bitsLen_pred_eq_clog _ (by omega) (by omega)]
    · have e : (neededAddresses sizes).toNat = 0 := by omega
      rw [e]
      unfold size2BitCountMask
      rw [if_pos (by omega)]
      simp
  · by_cases ht : 0 < neededAddresses sizes
    · rw [size2BitCountMask_pos _ ht hrange.2]
      have hlt : (neededAddresses sizes).toNat - 1 < 2 ^ 64 := by omega
      have hiff := bitsLen_le_iff ((neededAddresses sizes).toNat - 1) (32 - mask1).toNat hlt
      have hPn : 0 < 2 ^ (32 - mask1).toNat := Nat.two_pow_pos _
      have hcast : ((2 ^ (32 - mask1).toNat : Nat) : Int) = 2 ^ (32 - mask1).toNat := by
        push_cast; rfl
      constructor
      · intro h
        have h1 : ¬ bitsLen ((neededAddresses sizes).toNat - 1) ≤ (32 - mask1).toNat := by
          omega
        rw [hiff] at h1
        omega
      · intro h
        have h1 : ¬ (neededAddresses sizes).toNat - 1 < 2 ^ (32 - mask1).toNat := by omega
        rw [← hiff] at h1
        omega
    · unfold size2BitCountMask
      rw [if_pos (by omega)]
      constructor
      · intro h; omega
      · intro h; omega

/-- C8 (evaluation at the failing input): in the parent `192.168.1.0/24` the
requests `[2 ^ 62 - 2, 2 ^ 62 - 2]` get two blocks of `2 ^ 62` addresses, so the
total is `2 ^ 63`, far above the `2 ^ 8` addresses of the parent; but the
accumulator `neededAddresses` wraps to `-2 ^ 63`, `usedMask` is 32 instead of
`32 - 63`, and "Network is too small" is not reported. -/
theorem C8_too_small_not_reported_when_total_wraps :
    (buildNets [2 ^ 62 - 2, 2 ^ 62 - 2]).map NetInfo.size = [2 ^ 62, 2 ^ 62] ∧
      ((buildNets [2 ^ 62 - 2, 2 ^ 62 - 2]).map NetInfo.size).sum = 2 ^ 63 ∧
      (2 : Int) ^ 63 > 2 ^ (32 - (24 : Int)).toNat ∧
      (splitNetwork 0xC0A80100 24 [2 ^ 62 - 2, 2 ^ 62 - 2]).neededAddresses = -2 ^ 63 ∧
      (splitNetwork 0xC0A80100 24 [2 ^ 62 - 2, 2 ^ 62 - 2]).usedMask = 32 ∧
      (splitNetwork 0xC0A80100 24 [2 ^ 62 - 2, 2 ^ 62 - 2]).tooSmall = false := by
  refine ⟨by decide, by decide, by decide, by decide, by decide, by decide⟩

/-! ## Packing of requests that fit the parent -/

theorem exactBlockSize_eq_code (c : Int) (h0 : 0 ≤ c) (h1 : c ≤ 2 ^ 62 - 2) :
    round2PowerOf2 (wrapInt (c + 2)) = exactBlockSize c := by
  obtain ⟨x, hx⟩ := Int.eq_ofNat_of_zero_le (by omega : 0 ≤ c + 1)
  have hw : wrapInt (c + 2) = (x : Int) + 1 := by
    rw [wrapInt_of_range _ (by omega) (by omega)]; omega
  have hx62 : x < 2 ^ 62 := by omega
  obtain ⟨hr, -⟩ := round2PowerOf2_eq x hx62
  have ht : (c + 2).toNat = x + 1 := by omega
  have hb := bitsLen_pred_eq_clog (x + 1) (by omega) (by omega)
  rw [Nat.add_sub_cancel] at hb
  unfold exactBlockSize
  rw [hw, hr, ht, hb]

theorem exactBlockSize_map_eq (sizes : List Int)
    (hcap : ∀ c ∈ sizes, 0 ≤ c ∧ c ≤ 2 ^ 62 - 2) :
    sizes.map exactBlockSize = (buildNets sizes).map NetInfo.size := by
  simp only [buildNets, List.map_map]
  apply List.map_congr_left
  intro c hc
  exact (exactBlockSize_eq_code c (hcap c hc).1 (hcap c hc).2).symm

theorem exactBlockSize_pos (c : Int) : 0 < exactBlockSize c := by
  unfold exactBlockSize
  positivity

/-- A capacity whose exact block size is at most `2 ^ 32` is at most
`2 ^ 32 - 2`. -/
theorem capacity_le_of_exactBlockSize_le (c : Int)
    (h : exactBlockSize c ≤ 2 ^ 32) : c ≤ 2 ^ 32 - 2 := by
  unfold exactBlockSize at h
  have hk : Nat.clog 2 (c + 2).toNat ≤ 32 := by
    by_contra hcon
    have : (2 : Int) ^ 32 < 2 ^ Nat.clog 2 (c + 2).toNat :=
      pow_lt_pow_right₀ (by norm_num) (by omega)
    omega
  have hle := (Nat.le_pow_iff_clog_le (by norm_num : 1 < 2)).2 hk
  omega

/-- C6: in an aligned parent `(network, mask1)`, for non-negative capacities
whose block sizes (the least powers of two that are at least `c + 2`) sum to
at most `2 ^ (32 - mask1)`, the code computes exactly these block sizes, and
every packed block has size `2 ^ (32 - q)` for its mask length `q`, lies on a
multiple of its own size and entirely inside
`[network, network | ^cidrToMask(mask1)]`; any two blocks have disjoint
address sets. -/
theorem C6_fitting_blocks_well_formed (network : Nat) (mask1 : Int) (sizes : List Int)
    (hn : network < 2 ^ 32) (h0 : 0 ≤ mask1) (h32 : mask1 ≤ 32)
    (hal : network &&& cidrToMask mask1 = network)
    (hcap : ∀ c ∈ sizes, 0 ≤ c)
    (hsum : (sizes.map exactBlockSize).sum ≤ 2 ^ (32 - mask1).toNat) :
    (buildNets sizes).map NetInfo.size = sizes.map exactBlockSize ∧
      (∀ b ∈ (splitNetwork network mask1 sizes).nets,
        b.size = 2 ^ (32 - b.mask).toNat ∧ (b.net : Int) % b.size = 0 ∧
        network ≤ b.net ∧
        (b.net : Int) + b.size - 1 ≤ (splitNetwork network mask1 sizes).broadcast) ∧
      List.Pairwise (fun a b : NetInfo =>
          ∀ x, ¬ (inBlock (a.net, a.mask) x ∧ inBlock (b.net, b.mask) x))
        (splitNetwork network mask1 sizes).nets := by
  have hP : (2 : Int) ^ (32 - mask1).toNat ≤ 2 ^ 32 :=
    pow_le_pow_right₀ (by norm_num) (by omega)
  have hnn : ∀ y ∈ sizes.map exactBlockSize, (0 : Int) ≤ y := by
    intro y hy
    rw [List.mem_map] at hy
    obtain ⟨c, -, rfl⟩ := hy
    exact le_of_lt (exactBlockSize_pos c)
  have hbound : ∀ c ∈ sizes, 0 ≤ c ∧ c ≤ 2 ^ 62 - 2 := by
    intro c hc
    have h1 : exactBlockSize c ≤ (sizes.map exactBlockSize).sum :=
      List.single_le_sum hnn _ (List.mem_map_of_mem _ hc)
    have h2 := capacity_le_of_exactBlockSize_le c (by omega)
    exact ⟨hcap c hc, by omega⟩
  have hmap := exactBlockSize_map_eq sizes hbound
  have hsum2 : ((buildNets sizes).map NetInfo.size).sum ≤ 2 ^ (32 - mask1).toNat := by
    rw [← hmap]; exact hsum
  obtain ⟨hA, hB⟩ :=
    packed_blocks_well_formed_of_bounded network mask1 sizes hn h0 h32 hal hbound hsum2
  exact ⟨hmap.symm, hA, hB⟩

/-- C6 at the parent `192.168.1.0/24` with requests `[10, 50, 20, 50, 2]`,
whose block sizes 16, 64, 32, 64, 4 sum to 180. -/
theorem C6_fitting_blocks_well_formed_witness :
    (0xC0A80100 : Nat) &&& cidrToMask 24 = 0xC0A80100 ∧
      (List.map exactBlockSize [10, 50, 20, 50, 2]).sum ≤ 2 ^ (32 - (24 : Int)).toNat ∧
      (buildNets [10, 50, 20, 50, 2]).map NetInfo.size = [16, 64, 32, 64, 4] ∧
      List.Pairwise (fun a b : NetInfo =>
          ∀ x, ¬ (inBlock (a.net, a.mask) x ∧ inBlock (b.net, b.mask) x))
        (splitNetwork 0xC0A80100 24 [10, 50, 20, 50, 2]).nets :=
  ⟨by decide,
    (by rw [exactBlockSize_map_eq _ (by decide)]; decide),
    by decide,
    (C6_fitting_blocks_well_formed 0xC0A80100 24 [10, 50, 20, 50, 2] (by decide) (by decide)
      (by decide) (by decide) (by decide)
      (by rw [exactBlockSize_map_eq _ (by decide)]; decide)).2.2⟩

/-! ## The trailing range at the top of the address space -/

theorem deaggregateLoop_top (fuel : Nat) : ∀ base : Nat, base < 2 ^ 32 →
    deaggregateLoop 0xFFFFFFFF fuel base = none := by
  induction fuel with
  | zero =>
    intro base hb
    unfold deaggregateLoop
    rw [if_pos (by omega)]
  | succ f ih =>
    intro base hb
    unfold deaggregateLoop
    rw [if_pos (by omega), ih _ (add32_lt _ _)]
    rfl

/-- C9 (evaluation at the failing input): in the parent `255.255.255.252/30`
the request `[2]` takes the whole parent (4 addresses); the running address
wraps from `0xFFFFFFFC + 4` to 0, so the range handed to `deaggregate` is
`[0, 0xFFFFFFFF]`, which is not empty, and the loop over it never ends. -/
theorem C9_wraps_at_top_of_address_space :
    (0xFFFFFFFC : Nat) &&& cidrToMask 30 = 0xFFFFFFFC ∧
      ((buildNets [2]).map NetInfo.size).sum = 2 ^ (32 - (30 : Int)).toNat ∧
      (splitNetwork 0xFFFFFFFC 30 [2]).currentNet = 0 ∧
      (splitNetwork 0xFFFFFFFC 30 [2]).broadcast = 0xFFFFFFFF ∧
      (splitNetwork 0xFFFFFFFC 30 [2]).currentNet ≤
        (splitNetwork 0xFFFFFFFC 30 [2]).broadcast ∧
      ∀ fuel, splitUnused fuel 0xFFFFFFFC 30 [2] = none := by
  have e1 : (splitNetwork 0xFFFFFFFC 30 [2]).currentNet = 0 := by decide
  have e2 : (splitNetwork 0xFFFFFFFC 30 [2]).broadcast = 0xFFFFFFFF := by decide
  refine ⟨by decide, by decide, e1, e2, by rw [e1]; exact Nat.zero_le _, ?_⟩
  intro fuel
  unfold splitUnused deaggregate
  rw [e1, e2]
  exact deaggregateLoop_top fuel 0 (by norm_num)

/-! ## Subnet enumeration -/

theorem subnetsLoop_eq (network : Nat) (mask2 count : Int) (cnt : Nat)
    (hcnt : ∀ n : Nat, ((n : Int) < count ∧ n < 1000) ↔ n < cnt) (fuel : Nat) :
    ∀ n : Nat, n ≤ cnt → cnt ≤ n + fuel →
    subnetsLoop network mask2 count fuel n =
      (List.range' n (cnt - n)).map
        (fun i : Nat => network ||| shl32 (toUint32 (i : Int)) (32 - mask2).toNat) := by
  induction fuel with
  | zero =>
    intro n h1 h2
    have : cnt - n = 0 := by omega
    simp [subnetsLoop, this]
  | succ f ih =>
    intro n h1 h2
    unfold subnetsLoop
    by_cases hlt : n < cnt
    · rw [if_pos ((hcnt n).2 hlt), ih (n + 1) (by omega) (by omega)]
      have : cnt - n = (cnt - (n + 1)) + 1 := by omega
      rw [this, List.range'_succ]
      simp
    · rw [if_neg (fun h => hlt ((hcnt n).1 h))]
      have : cnt - n = 0 := by omega
      simp [this]

theorem subnetCount_eq (mask1 mask2 : Int) (h0 : 0 ≤ mask1) (h12 : mask1 < mask2)
    (h32 : mask2 ≤ 32) : subnetCount mask1 mask2 = 2 ^ (mask2 - mask1).toNat := by
  unfold subnetCount
  have hd : (mask2 - mask1).toNat ≤ 32 := by omega
  have h1 : (2 : Int) ^ (mask2 - mask1).toNat ≤ 2 ^ 32 := pow_le_pow_right₀ (by norm_num) hd
  have h2 : (0 : Int) < 2 ^ (mask2 - mask1).toNat := by positivity
  exact wrapInt_of_range _ (by omega) (by omega)

theorem subnets_eq_or (network : Nat) (mask1 mask2 : Int) (h0 : 0 ≤ mask1)
    (h12 : mask1 < mask2) (h32 : mask2 ≤ 32) :
    subnets network mask1 mask2 =
      (List.range (min (2 ^ (mask2 - mask1).toNat) 1000)).map
        (fun i : Nat => network ||| shl32 (toUint32 (i : Int)) (32 - mask2).toNat) := by
  unfold subnets
  rw [subnetCount_eq mask1 mask2 h0 h12 h32, List.range_eq_range']
  have hcnt : ∀ n : Nat, ((n : Int) < 2 ^ (mask2 - mask1).toNat ∧ n < 1000) ↔
      n < min (2 ^ (mask2 - mask1).toNat) 1000 := by
    intro n
    have : ((n : Int) < 2 ^ (mask2 - mask1).toNat) ↔ n < 2 ^ (mask2 - mask1).toNat := by
      constructor
      · intro h; exact_mod_cast h
      · intro h; exact_mod_cast h
    rw [this, lt_min_iff]
  have := subnetsLoop_eq network mask2 _ _ hcnt 1000 0 (Nat.zero_le _)
    (by rw [Nat.zero_add]; exact Nat.min_le_right _ _)
  simpa using this

/-- The shifted index of a child does not overlap the bits of an aligned
parent, so `|` adds it. -/
theorem child_or_eq_add (network : Nat) (mask1 mask2 : Int) (h0 : 0 ≤ mask1)
    (h12 : mask1 < mask2) (h32 : mask2 ≤ 32)
    (hal : network % 2 ^ (32 - mask1).toNat = 0) (i : Nat)
    (hi : i < 2 ^ (mask2 - mask1).toNat) :
    network ||| shl32 (toUint32 (i : Int)) (32 - mask2).toNat =
        network + i * 2 ^ (32 - mask2).toNat ∧
      i * 2 ^ (32 - mask2).toNat + 2 ^ (32 - mask2).toNat ≤ 2 ^ (32 - mask1).toNat := by
  have hsplit : (32 - mask1).toNat = (mask2 - mask1).toNat + (32 - mask2).toNat := by omega
  have hpw : 2 ^ (32 - mask1).toNat = 2 ^ (mask2 - mask1).toNat * 2 ^ (32 - mask2).toNat := by
    rw [hsplit, pow_add]
  have hle : 2 ^ (32 - mask1).toNat ≤ 2 ^ 32 :=
    Nat.pow_le_pow_right (by norm_num) (by omega)
  have hd32 : 2 ^ (mask2 - mask1).toNat ≤ 2 ^ 32 :=
    Nat.pow_le_pow_right (by norm_num) (by omega)
  have hbound : i * 2 ^ (32 - mask2).toNat + 2 ^ (32 - mask2).toNat ≤
      2 ^ (32 - mask1).toNat := by
    rw [hpw]
    have : (i + 1) * 2 ^ (32 - mask2).toNat ≤
        2 ^ (mask2 - mask1).toNat * 2 ^ (32 - mask2).toNat :=
      Nat.mul_le_mul_right _ hi
    rw [Nat.add_mul, Nat.one_mul] at this
    exact this
  have hpos : 0 < 2 ^ (32 - mask2).toNat := Nat.two_pow_pos _
  have hu : toUint32 (i : Int) = i := by
    unfold toUint32
    have : ((i : Int)) % 2 ^ 32 = i := by omega
    rw [this]; simp
  have hs : shl32 i (32 - mask2).toNat = i * 2 ^ (32 - mask2).toNat := by
    unfold shl32
    rw [Nat.shiftLeft_eq]
    exact Nat.mod_eq_of_lt (by omega)
  rw [hu, hs]
  exact ⟨lor_eq_add _ _ _ hal (by omega), hbound⟩

/-- C10 as stated fails: splitting `0.0.0.0/0` into `/10` has `2 ^ 10 = 1024`
children, but the enumeration stops after 1000. -/
theorem C10_counterexample_enumeration_capped :
    ¬ ∀ (network : Nat) (mask1 mask2 : Int),
      network < 2 ^ 32 → 0 ≤ mask1 → mask1 < mask2 → mask2 ≤ 32 →
      network &&& cidrToMask mask1 = network →
      (subnets network mask1 mask2).length = 2 ^ (mask2 - mask1).toNat := by
  intro h
  have h1 := h 0 0 10 (by decide) (by decide) (by decide) (by decide) (by decide)
  rw [subnets_eq_or 0 0 10 (by decide) (by decide) (by decide)] at h1
  simp at h1

/-- C10, amended: for an aligned `network` and `0 ≤ mask1 < mask2 ≤ 32` the
enumeration of `subnets` has `min (2 ^ (mask2 - mask1)) 1000` children (the
count it reports, `subnetCount`, is `2 ^ (mask2 - mask1)`); the
`i`-th child (from 0) is `network | (i << (32 - mask2))`, which equals
`network + i * 2 ^ (32 - mask2)`; the children are strictly increasing,
consecutive ones are `2 ^ (32 - mask2)` apart, each is aligned to `mask2` and
lies with its whole block inside the parent. Splitting `192.168.0.0/24` into
`/26` gives `192.168.0.0`, `.64`, `.128`, `.192`. -/
theorem C10_subnets_enumeration (network : Nat) (mask1 mask2 : Int)
    (hn : network < 2 ^ 32) (h0 : 0 ≤ mask1) (h12 : mask1 < mask2) (h32 : mask2 ≤ 32)
    (hal : network &&& cidrToMask mask1 = network) :
    (subnets network mask1 mask2).length = min (2 ^ (mask2 - mask1).toNat) 1000 ∧
      subnetCount mask1 mask2 = 2 ^ (mask2 - mask1).toNat ∧
      subnets network mask1 mask2 =
        (List.range (min (2 ^ (mask2 - mask1).toNat) 1000)).map
          (fun i : Nat => network ||| shl32 (toUint32 (i : Int)) (32 - mask2).toNat) ∧
      subnets network mask1 mask2 =
        (List.range (min (2 ^ (mask2 - mask1).toNat) 1000)).map
          (fun i => network + i * 2 ^ (32 - mask2).toNat) ∧
      List.Pairwise (fun a b => a < b) (subnets network mask1 mask2) ∧
      (∀ i, i + 1 < min (2 ^ (mask2 - mask1).toNat) 1000 →
        (subnets network mask1 mask2)[i + 1]? =
          ((subnets network mask1 mask2)[i]?).map (fun a => a + 2 ^ (32 - mask2).toNat)) ∧
      (∀ c ∈ subnets network mask1 mask2,
        c &&& cidrToMask mask2 = c ∧ network ≤ c ∧
        c ||| not32 (cidrToMask mask2) ≤ network ||| not32 (cidrToMask mask1)) ∧
      subnets 0xC0A80000 24 26 = [0xC0A80000, 0xC0A80040, 0xC0A80080, 0xC0A800C0] := by
  have hal2 := (aligned_iff network mask1 hn h0 (by omega)).1 hal
  have hor := subnets_eq_or network mask1 mask2 h0 h12 h32
  have hpos : 0 < 2 ^ (32 - mask2).toNat := Nat.two_pow_pos _
  have hadd : subnets network mask1 mask2 =
      (List.range (min (2 ^ (mask2 - mask1).toNat) 1000)).map
        (fun i => network + i * 2 ^ (32 - mask2).toNat) := by
    rw [hor]
    apply List.map_congr_left
    intro i hi
    rw [List.mem_range] at hi
    exact (child_or_eq_add network mask1 mask2 h0 h12 h32 hal2 i (by omega)).1
  refine ⟨by rw [hor]; simp, subnetCount_eq mask1 mask2 h0 h12 h32, hor, hadd, ?_, ?_, ?_,
    by decide⟩
  · rw [hadd, List.pairwise_map]
    refine List.Pairwise.imp ?_ (List.pairwise_lt_range _)
    intro a b hab
    have : a * 2 ^ (32 - mask2).toNat < b * 2 ^ (32 - mask2).toNat :=
      Nat.mul_lt_mul_of_pos_right hab hpos
    omega
  · intro i hi
    rw [hadd]
    simp only [List.getElem?_map, List.getElem?_range hi,
      List.getElem?_range (by omega : i < min (2 ^ (mask2 - mask1).toNat) 1000),
      Option.map_some']
    congr 1
    rw [Nat.add_mul, Nat.one_mul]
    omega
  · intro c hc
    rw [hadd] at hc
    simp only [List.mem_map, List.mem_range] at hc
    obtain ⟨i, hi, rfl⟩ := hc
    obtain ⟨-, hb⟩ := child_or_eq_add network mask1 mask2 h0 h12 h32 hal2 i (by omega)
    have hfit := aligned_add_le network (32 - mask1).toNat (by omega) hn hal2
    have hmod : (network + i * 2 ^ (32 - mask2).toNat) % 2 ^ (32 - mask2).toNat = 0 := by
      have hd : 2 ^ (32 - mask2).toNat ∣ 2 ^ (32 - mask1).toNat :=
        Nat.pow_dvd_pow 2 (by omega)
      have h1 : 2 ^ (32 - mask2).toNat ∣ network :=
        hd.trans (Nat.dvd_of_mod_eq_zero hal2)
      exact Nat.mod_eq_zero_of_dvd (Nat.dvd_add h1 (Nat.dvd_mul_left _ _))
    refine ⟨(aligned_iff _ mask2 (by omega) (by omega) h32).2 hmod, by omega, ?_⟩
    rw [broadcast_eq _ mask2 (by omega) h32 hmod, broadcast_eq _ mask1 h0 (by omega) hal2]
    omega

/-- C10 (amended) for `10.0.0.0/8` split into `/12`: 16 children. -/
theorem C10_subnets_enumeration_witness :
    (0x0A000000 : Nat) &&& cidrToMask 8 = 0x0A000000 ∧
      (subnets 0x0A000000 8 12).length = min (2 ^ ((12 : Int) - 8).toNat) 1000 ∧
      List.Pairwise (fun a b => a < b) (subnets 0x0A000000 8 12) :=
  ⟨by decide,
    (C10_subnets_enumeration 0x0A000000 8 12 (by decide) (by decide) (by decide)
      (by decide) (by decide)).1,
    (C10_subnets_enumeration 0x0A000000 8 12 (by decide) (by decide) (by decide)
      (by decide) (by decide)).2.2.2.2.1⟩

/-! ## Host totals of `subnets` -/

/-- Below `/31` the total of `subnets` is the host count `printNet` gives a
child, times the number of children, and the product does not overflow. -/
theorem subnetsHosts_below_31 (network : Nat) (mask1 mask2 : Int) (hn : network < 2 ^ 32)
    (h0 : 0 ≤ mask1) (h12 : mask1 < mask2) (h30 : mask2 ≤ 30)
    (hal : network &&& cidrToMask mask1 = network) :
    subnetsHosts network mask1 mask2 =
        (2 ^ (32 - mask2).toNat - 2) * 2 ^ (mask2 - mask1).toNat ∧
      (printNet network (cidrToMask mask2) mask2).hosts = 2 ^ (32 - mask2).toNat - 2 ∧
      (2 ^ (32 - mask2).toNat - 2) * 2 ^ (mask2 - mask1).toNat < 2 ^ 32 := by
  have hal1 := (aligned_iff network mask1 hn h0 (by omega)).1 hal
  have hal2 : network % 2 ^ (32 - mask2).toNat = 0 := by
    have hd : 2 ^ (32 - mask2).toNat ∣ 2 ^ (32 - mask1).toNat :=
      Nat.pow_dvd_pow 2 (by omega)
    exact Nat.mod_eq_zero_of_dvd (hd.trans (Nat.dvd_of_mod_eq_zero hal1))
  have hb := broadcast_eq network mask2 (by omega) (by omega) hal2
  have hfit := aligned_add_le network (32 - mask2).toNat (by omega) hn hal2
  have h4 : 2 ^ 2 ≤ 2 ^ (32 - mask2).toNat := Nat.pow_le_pow_right (by norm_num) (by omega)
  have hsplit : (32 - mask1).toNat = (32 - mask2).toNat + (mask2 - mask1).toNat := by omega
  have hpw : 2 ^ (32 - mask2).toNat * 2 ^ (mask2 - mask1).toNat = 2 ^ (32 - mask1).toNat := by
    rw [hsplit, pow_add]
  have hle : 2 ^ (32 - mask1).toNat ≤ 2 ^ 32 := Nat.pow_le_pow_right (by norm_num) (by omega)
  have hprod : (2 ^ (32 - mask2).toNat - 2) * 2 ^ (mask2 - mask1).toNat < 2 ^ 32 := by
    have h1 : (2 ^ (32 - mask2).toNat - 2) * 2 ^ (mask2 - mask1).toNat ≤
        2 ^ (32 - mask2).toNat * 2 ^ (mask2 - mask1).toNat :=
      Nat.mul_le_mul_right _ (Nat.sub_le _ _)
    have hd : 0 < 2 ^ (mask2 - mask1).toNat := Nat.two_pow_pos _
    have h2 : (2 ^ (32 - mask2).toNat - 2) * 2 ^ (mask2 - mask1).toNat <
        2 ^ (32 - mask2).toNat * 2 ^ (mask2 - mask1).toNat :=
      Nat.mul_lt_mul_of_pos_right (by omega) hd
    omega
  have hhostn : subnetsHostn network mask2 = 2 ^ (32 - mask2).toNat - 2 := by
    unfold subnetsHostn
    rw [hb]
    unfold sub32
    split <;> omega
  have hcount : toUint (subnetCount mask1 mask2) = 2 ^ (mask2 - mask1).toNat := by
    rw [subnetCount_eq mask1 mask2 h0 h12 (by omega)]
    have e : ((2 : Int) ^ (mask2 - mask1).toNat) = ((2 ^ (mask2 - mask1).toNat : Nat) : Int) := by
      push_cast; rfl
    have hd32 : 2 ^ (mask2 - mask1).toNat ≤ 2 ^ 32 :=
      Nat.pow_le_pow_right (by norm_num) (by omega)
    rw [e, toUint_natCast _ (by omega)]
  refine ⟨?_, ?_, hprod⟩
  · unfold subnetsHosts
    rw [hhostn, hcount]
    exact Nat.mod_eq_of_lt (by omega)
  · have hne32 : ¬ mask2 = 32 := by omega
    have hne31 : ¬ mask2 = 31 := by omega
    simp only [printNet, if_neg hne32, netHosts, if_neg hne31, netBroadcast, hb, sub32,
      add32]
    omega

/-- C11 (evaluation at the failing inputs): splitting `192.168.0.0/24` into
`/31` gives `hostn = 0`, which the guard `hostn < 1` raises to 1, so 128
hosts are reported although `printNet` counts 2 hosts in each of the 128
subnets; splitting into `/32` wraps `hostn` to `0xFFFFFFFF`, so
`4294967295 * 256` hosts are reported although `printNet` counts 1 host in
each of the 256 subnets. -/
theorem C11_subnets_hosts_at_31_and_32 :
    subnetsHosts 0xC0A80000 24 31 = 128 ∧
      (printNet 0xC0A80000 (cidrToMask 31) 31).hosts * 2 ^ (31 - 24) = 256 ∧
      subnetsHostn 0xC0A80000 32 = 0xFFFFFFFF ∧
      subnetsHosts 0xC0A80000 24 32 = 4294967295 * 256 ∧
      (printNet 0xC0A80000 (cidrToMask 32) 32).hosts * 2 ^ (32 - 24) = 256 := by
  refine ⟨by decide, by decide, by decide, by decide, by decide⟩

/-! ## The cap on the enumeration of `subnets` -/

theorem subnetsLoopNum_eq (count : Int) (cnt : Nat)
    (hcnt : ∀ n : Nat, ((n : Int) < count ∧ n < 1000) ↔ n < cnt) (fuel : Nat) :
    ∀ n : Nat, n ≤ cnt → cnt ≤ n + fuel → subnetsLoopNum count fuel n = cnt := by
  induction fuel with
  | zero =>
    intro n h1 h2
    simp only [subnetsLoopNum]
    omega
  | succ f ih =>
    intro n h1 h2
    unfold subnetsLoopNum
    by_cases hlt : n < cnt
    · rw [if_pos ((hcnt n).2 hlt)]
      exact ih (n + 1) (by omega) (by omega)
    · rw [if_neg (fun h => hlt ((hcnt n).1 h))]
      omega

theorem two_pow_gt_1000_iff (d : Nat) : 1000 ≤ 2 ^ d ↔ 1000 < 2 ^ d := by
  constructor
  · intro h
    by_contra hcon
    have h1 : 2 ^ d = 1000 := by omega
    have hd : d < 10 := by
      by_contra h10
      have : 2 ^ 10 ≤ 2 ^ d := Nat.pow_le_pow_right (by norm_num) (by omega)
      omega
    interval_cases d <;> omega
  · intro h; omega

/-- C12: for `0 ≤ mask1 < mask2 ≤ 32`, `subnets` enumerates exactly
`min (2 ^ (mask2 - mask1)) 1000` children, and prints
"... stopped at 1000 subnets ..." exactly when `2 ^ (mask2 - mask1) > 1000`,
which is exactly when some child is left out of the enumeration. -/
theorem C12_enumeration_count_and_stop (network : Nat) (mask1 mask2 : Int)
    (h0 : 0 ≤ mask1) (h12 : mask1 < mask2) (h32 : mask2 ≤ 32) :
    (subnets network mask1 mask2).length = min (2 ^ (mask2 - mask1).toNat) 1000 ∧
      (subnetsStopped mask1 mask2 = true ↔ 2 ^ (mask2 - mask1).toNat > 1000) ∧
      (2 ^ (mask2 - mask1).toNat > 1000 ↔
        (subnets network mask1 mask2).length < 2 ^ (mask2 - mask1).toNat) := by
  have hlen : (subnets network mask1 mask2).length = min (2 ^ (mask2 - mask1).toNat) 1000 := by
    rw [subnets_eq_or network mask1 mask2 h0 h12 h32]; simp
  have hcnt : ∀ n : Nat, ((n : Int) < subnetCount mask1 mask2 ∧ n < 1000) ↔
      n < min (2 ^ (mask2 - mask1).toNat) 1000 := by
    intro n
    rw [subnetCount_eq mask1 mask2 h0 h12 h32]
    have : ((n : Int) < 2 ^ (mask2 - mask1).toNat) ↔ n < 2 ^ (mask2 - mask1).toNat := by
      constructor
      · intro h; exact_mod_cast h
      · intro h; exact_mod_cast h
    rw [this, lt_min_iff]
  have hnum := subnetsLoopNum_eq _ _ hcnt 1000 0 (Nat.zero_le _)
    (by rw [Nat.zero_add]; exact Nat.min_le_right _ _)
  have hiff := two_pow_gt_1000_iff (mask2 - mask1).toNat
  refine ⟨hlen, ?_, ?_⟩
  · unfold subnetsStopped
    rw [hnum, decide_eq_true_eq]
    constructor
    · intro h
      have : 1000 ≤ 2 ^ (mask2 - mask1).toNat := le_trans h (Nat.min_le_left _ _)
      exact hiff.1 this
    · intro h
      exact le_min (by omega) le_rfl
  · rw [hlen]
    constructor
    · intro h
      rw [Nat.min_eq_right (by omega)]; exact h
    · intro h
      by_contra hcon
      rw [Nat.min_eq_left (by omega)] at h
      omega

/-- C12 for `10.0.0.0/8` split into `/24`: 65536 children, 1000 enumerated,
and the stop is reported. -/
theorem C12_enumeration_count_and_stop_witness :
    (0 : Int) ≤ 8 ∧ (8 : Int) < 24 ∧ (24 : Int) ≤ 32 ∧
      (subnets 0x0A000000 8 24).length = min (2 ^ ((24 : Int) - 8).toNat) 1000 ∧
      (subnetsStopped 8 24 = true ↔ 2 ^ ((24 : Int) - 8).toNat > 1000) :=
  ⟨by decide, by decide, by decide,
    (C12_enumeration_count_and_stop 0x0A000000 8 24 (by decide) (by decide) (by decide)).1,
    (C12_enumeration_count_and_stop 0x0A000000 8 24 (by decide) (by decide) (by decide)).2.1⟩

/-! ## Supernets -/

theorem land_high_mask (a k : Nat) (ha : a < 2 ^ 32) (hk : k ≤ 32) :
    a &&& (2 ^ 32 - 2 ^ k) = 2 ^ k * (a / 2 ^ k) := by
  apply Nat.eq_of_testBit_eq
  intro i
  rw [Nat.testBit_and, testBit_high_mask k i hk, Nat.testBit_mul_pow_two,
    ← Nat.shiftRight_eq_div_pow, Nat.testBit_shiftRight]
  by_cases hi : i < k
  · have h1 : ¬ i ≥ k := by omega
    simp [hi, h1]
  · have h1 : i ≥ k := by omega
    have h2 : k + (i - k) = i := by omega
    by_cases hi2 : i < 32
    · simp [hi, hi2, h1, h2]
    · have : a.testBit i = false := by
        apply Nat.testBit_lt_two_pow
        exact lt_of_lt_of_le ha (Nat.pow_le_pow_right (by norm_num) (by omega))
      simp [this, h2]

theorem aligned_add_le_pow (r k K : Nat) (hk : k ≤ K) (hr : r < 2 ^ K)
    (hal : r % 2 ^ k = 0) : r + 2 ^ k ≤ 2 ^ K := by
  obtain ⟨m, hm⟩ := Nat.dvd_of_mod_eq_zero hal
  obtain ⟨M, hM⟩ : 2 ^ k ∣ 2 ^ K := Nat.pow_dvd_pow 2 hk
  have hpos : 0 < 2 ^ k := Nat.two_pow_pos k
  have hlt : m < M := by
    have : 2 ^ k * m < 2 ^ k * M := by omega
    exact Nat.lt_of_mul_lt_mul_left this
  have : 2 ^ k * (m + 1) ≤ 2 ^ k * M := Nat.mul_le_mul_left _ hlt
  rw [Nat.mul_add, Nat.mul_one] at this
  omega

/-- C13: for an aligned network `(network, mask1)` and `0 ≤ mask2 < mask1 ≤ 32`
the network line printed by `supernet` is `s = network & cidrToMask(mask2)`;
`s` is aligned to `mask2`, `s ≤ network`, and the broadcast of the original
network is at most the broadcast of the supernet. Supernetting
`192.168.1.0/24` to `/22` gives `192.168.0.0`. -/
theorem C13_supernet_contains_network (network : Nat) (mask1 mask2 : Int)
    (hn : network < 2 ^ 32) (h0 : 0 ≤ mask2) (h21 : mask2 < mask1) (h32 : mask1 ≤ 32)
    (hal : network &&& cidrToMask mask1 = network) :
    (supernet network mask2).network = some (network &&& cidrToMask mask2) ∧
      (network &&& cidrToMask mask2) &&& cidrToMask mask2 = network &&& cidrToMask mask2 ∧
      network &&& cidrToMask mask2 ≤ network ∧
      network ||| not32 (cidrToMask mask1) ≤
        (network &&& cidrToMask mask2) ||| not32 (cidrToMask mask2) ∧
      (supernet 0xC0A80100 22).network = some 0xC0A80000 := by
  have hal1 := (aligned_iff network mask1 hn (by omega) h32).1 hal
  have hs : network &&& cidrToMask mask2 =
      2 ^ (32 - mask2).toNat * (network / 2 ^ (32 - mask2).toNat) := by
    rw [cidrToMask_eq mask2 h0 (by omega)]
    exact land_high_mask network _ hn (by omega)
  have hsle : network &&& cidrToMask mask2 ≤ network := Nat.and_le_left
  have hsmod : (network &&& cidrToMask mask2) % 2 ^ (32 - mask2).toNat = 0 := by
    rw [hs]; exact Nat.mul_mod_right _ _
  have hdm := Nat.div_add_mod network (2 ^ (32 - mask2).toNat)
  have hk12 : (32 - mask1).toNat ≤ (32 - mask2).toNat := by omega
  have hrlt : network % 2 ^ (32 - mask2).toNat < 2 ^ (32 - mask2).toNat :=
    Nat.mod_lt _ (Nat.two_pow_pos _)
  have hrmod : (network % 2 ^ (32 - mask2).toNat) % 2 ^ (32 - mask1).toNat = 0 := by
    rw [Nat.mod_mod_of_dvd _ (Nat.pow_dvd_pow 2 hk12)]; exact hal1
  have hfit := aligned_add_le_pow _ _ _ hk12 hrlt hrmod
  have hp1 : 0 < 2 ^ (32 - mask1).toNat := Nat.two_pow_pos _
  refine ⟨?_, ?_, hsle, ?_, by decide⟩
  · unfold supernet printNet
    rw [if_neg (by omega)]
  · exact (aligned_iff _ mask2 (by omega) h0 (by omega)).2 hsmod
  · rw [broadcast_eq network mask1 (by omega) h32 hal1,
      broadcast_eq _ mask2 h0 (by omega) hsmod, hs]
    omega

/-- C13 for `10.1.2.0/24` aggregated to `/16`. -/
theorem C13_supernet_contains_network_witness :
    (0x0A010200 : Nat) &&& cidrToMask 24 = 0x0A010200 ∧
      (supernet 0x0A010200 16).network = some (0x0A010200 &&& cidrToMask 16) ∧
      0x0A010200 ||| not32 (cidrToMask 24) ≤
        (0x0A010200 &&& cidrToMask 16) ||| not32 (cidrToMask 16) :=
  ⟨by decide,
    (C13_supernet_contains_network 0x0A010200 24 16 (by decide) (by decide) (by decide)
      (by decide) (by decide)).1,
    (C13_supernet_contains_network 0x0A010200 24 16 (by decide) (by decide) (by decide)
      (by decide) (by decide)).2.2.2.1⟩

/-! ## Host range and host count of `printNet` -/

/-- C14: for `0 ≤ p ≤ 30` and a network aligned to `p`, `printNet` prints
broadcast `= network | ^cidrToMask(p) = network + 2 ^ (32 - p) - 1`,
HostMin `= network + 1`, HostMax `= broadcast - 1` and
Hosts/Net `= 2 ^ (32 - p) - 2`; the broadcast is below `2 ^ 32`, so none of
these values wraps. For `p = 0` the host count is `2 ^ 32 - 2`. -/
theorem C14_printNet_host_range (network : Nat) (p : Int) (hn : network < 2 ^ 32)
    (h0 : 0 ≤ p) (h30 : p ≤ 30) (hal : network &&& cidrToMask p = network) :
    network ||| not32 (cidrToMask p) = network + 2 ^ (32 - p).toNat - 1 ∧
      network + 2 ^ (32 - p).toNat - 1 < 2 ^ 32 ∧
      (printNet network (cidrToMask p) p).network = some network ∧
      (printNet network (cidrToMask p) p).broadcast =
        some (network + 2 ^ (32 - p).toNat - 1) ∧
      (printNet network (cidrToMask p) p).hostMin = some (network + 1) ∧
      (printNet network (cidrToMask p) p).hostMax =
        some (network + 2 ^ (32 - p).toNat - 1 - 1) ∧
      (printNet network (cidrToMask p) p).hosts =
        (network + 2 ^ (32 - p).toNat - 1 - 1) - (network + 1) + 1 ∧
      (printNet network (cidrToMask p) p).hosts = 2 ^ (32 - p).toNat - 2 ∧
      (printNet 0 (cidrToMask 0) 0).hosts = 2 ^ 32 - 2 := by
  have hal1 := (aligned_iff network p hn h0 (by omega)).1 hal
  have hb := broadcast_eq network p h0 (by omega) hal1
  have hfit := aligned_add_le network (32 - p).toNat (by omega) hn hal1
  have h4 : 2 ^ 2 ≤ 2 ^ (32 - p).toNat := Nat.pow_le_pow_right (by norm_num) (by omega)
  have hne32 : ¬ p = 32 := by omega
  have hne31 : ¬ p = 31 := by omega
  have hlt31 : p < 31 := by omega
  refine ⟨hb, by omega, ?_, ?_, ?_, ?_, ?_, ?_, by decide⟩
  · simp only [printNet, if_neg hne32]
  · simp only [printNet, if_neg hne32, if_pos hlt31, netBroadcast, hb]
  · simp only [printNet, if_neg hne32, netHostMin, if_neg hne31, add32]
    exact congrArg some (by omega)
  · simp only [printNet, if_neg hne32, netHostMax, if_neg hne31, netBroadcast, hb, sub32]
    exact congrArg some (by omega)
  · simp only [printNet, if_neg hne32, netHosts, if_neg hne31, netBroadcast, hb, sub32,
      add32]
    omega
  · simp only [printNet, if_neg hne32, netHosts, if_neg hne31, netBroadcast, hb, sub32,
      add32]
    omega

/-- C14 for `192.168.1.0/24`: 254 hosts. -/
theorem C14_printNet_host_range_witness :
    (0xC0A80100 : Nat) &&& cidrToMask 24 = 0xC0A80100 ∧
      (printNet 0xC0A80100 (cidrToMask 24) 24).hosts = 2 ^ (32 - (24 : Int)).toNat - 2 ∧
      (printNet 0xC0A80100 (cidrToMask 24) 24).hostMin = some (0xC0A80100 + 1) :=
  ⟨by decide,
    (C14_printNet_host_range 0xC0A80100 24 (by decide) (by decide) (by decide)
      (by decide)).2.2.2.2.2.2.2.1,
    (C14_printNet_host_range 0xC0A80100 24 (by decide) (by decide) (by decide)
      (by decide)).2.2.2.2.1⟩

/-- C15: at `/31` `printNet` prints HostMin `= network`,
HostMax `= network | 1`, Hosts/Net `= 2` and no Broadcast line; at `/32` it
prints only the Hostroute line and Hosts/Net `= 1`. -/
theorem C15_printNet_boundary_rules (network : Nat) :
    (printNet network (cidrToMask 31) 31).hostMin = some network ∧
      (printNet network (cidrToMask 31) 31).hostMax = some (network ||| 1) ∧
      (printNet network (cidrToMask 31) 31).hosts = 2 ∧
      (printNet network (cidrToMask 31) 31).broadcast = none ∧
      (printNet network (cidrToMask 31) 31).network = some network ∧
      printNet network (cidrToMask 32) 32 =
        { hostroute := some network, network := none, hostMin := none, hostMax := none,
          broadcast := none, hosts := 1 } := by
  have h31 : not32 (cidrToMask 31) = 1 := by decide
  refine ⟨?_, ?_, ?_, ?_, ?_, ?_⟩
  · simp [printNet, netHostMin]
  · simp [printNet, netHostMax, netBroadcast, h31]
  · simp [printNet, netHosts]
  · simp [printNet]
  · simp [printNet]
  · simp [printNet, netHosts]

/-! ## Masks and mask lengths -/

/-- C16: for every mask length `p` in `[0, 32]`, `cidrToMask p` is a valid
netmask and `maskToCIDR` gives `p` back. -/
theorem C16_cidrToMask_valid_roundtrip (p : Int) (h0 : 0 ≤ p) (h32 : p ≤ 32) :
    isValidNetmask (cidrToMask p) = true ∧ maskToCIDR (cidrToMask p) = p := by
  interval_cases p <;> exact ⟨by decide, by decide⟩

/-- C16 at the ends of the range, `p = 0` and `p = 32`. -/
theorem C16_cidrToMask_valid_roundtrip_witness :
    (isValidNetmask (cidrToMask 0) = true ∧ maskToCIDR (cidrToMask 0) = 0) ∧
      (isValidNetmask (cidrToMask 32) = true ∧ maskToCIDR (cidrToMask 32) = 32) :=
  ⟨C16_cidrToMask_valid_roundtrip 0 (by decide) (by decide),
    C16_cidrToMask_valid_roundtrip 32 (by decide) (by decide)⟩

/-! ## Valid netmasks -/

theorem bit_eq_zero_iff (m k : Nat) : (m >>> k) &&& 1 = 0 ↔ m.testBit k = false := by
  unfold Nat.testBit
  rw [Nat.and_one_is_mod, Nat.one_and_eq_mod_two]
  simp

/-- The scan of `isValidNetmask` over the `n` least significant bits, with
the flag `sawZero` recording a zero among the bits above them. -/
theorem isValidNetmaskLoop_iff (m : Nat) : ∀ (n : Nat) (sz : Bool), n ≤ 32 →
    (isValidNetmaskLoop m n (32 - n) sz = true ↔
      ((sz = true → ∀ b, b < n → m.testBit b = false) ∧
        ∀ a b, b < a → a < n → ¬ (m.testBit a = false ∧ m.testBit b = true))) := by
  intro n
  induction n with
  | zero =>
    intro sz _
    simp [isValidNetmaskLoop]
  | succ n ih =>
    intro sz hn
    unfold isValidNetmaskLoop
    have hi : 32 - (n + 1) < 32 := by omega
    have hpos : 31 - (32 - (n + 1)) = n := by omega
    have hnext : 32 - (n + 1) + 1 = 32 - n := by omega
    rw [if_pos hi, hpos, hnext]
    by_cases hbit : (m >>> n) &&& 1 = 0
    · have htb : m.testBit n = false := (bit_eq_zero_iff m n).1 hbit
      rw [if_pos hbit, ih true (by omega)]
      constructor
      · rintro ⟨h1, h2⟩
        have h1' := h1 rfl
        refine ⟨?_, ?_⟩
        · intro _ b hb
          rcases Nat.lt_succ_iff_lt_or_eq.1 hb with hb' | rfl
          · exact h1' b hb'
          · exact htb
        · intro a b hba han
          rcases Nat.lt_succ_iff_lt_or_eq.1 han with han' | rfl
          · exact h2 a b hba han'
          · intro hcon
            have := h1' b hba
            rw [this] at hcon
            exact Bool.false_ne_true hcon.2
      · rintro ⟨-, h2⟩
        refine ⟨?_, ?_⟩
        · intro _ b hb
          by_contra hcon
          have hbt : m.testBit b = true := by simpa using hcon
          exact h2 n b hb (Nat.lt_succ_self n) ⟨htb, hbt⟩
        · intro a b hba han
          exact h2 a b hba (by omega)
    · have htb : m.testBit n = true := by
        have := (bit_eq_zero_iff m n).not.1 hbit
        simpa using this
      rw [if_neg hbit]
      cases sz with
      | true =>
        simp only [if_true, Bool.false_eq_true, true_implies, false_iff, not_and]
        intro h1
        have := h1 n (Nat.lt_succ_self n)
        rw [htb] at this
        exact absurd this Bool.noConfusion
      | false =>
        simp only [Bool.false_eq_true, if_false, false_implies, true_and]
        rw [ih false (by omega)]
        simp only [Bool.false_eq_true, false_implies, true_and]
        constructor
        · intro h2 a b hba han
          rcases Nat.lt_succ_iff_lt_or_eq.1 han with han' | rfl
          · exact h2 a b hba han'
          · intro hcon
            rw [htb] at hcon
            exact Bool.noConfusion hcon.1
        · intro h2 a b hba han
          exact h2 a b hba (by omega)

/-- C17: `isValidNetmask m` is true exactly when there are no bit positions
`j < i < 32` with bit `i` of `m` zero and bit `j` of `m` one, that is, when no
one-bit follows a zero-bit in the scan from the most significant bit; so
`0xFF00FF00`, `0x12345678` and `0xFFFF00FF` are invalid and `0`,
`0xFFFFFFFF` are valid. -/
theorem C17_isValidNetmask_iff (m : Nat) :
    (isValidNetmask m = true ↔
        ¬ ∃ i j, j < i ∧ i < 32 ∧ m.testBit i = false ∧ m.testBit j = true) ∧
      isValidNetmask 0xFF00FF00 = false ∧ isValidNetmask 0x12345678 = false ∧
      isValidNetmask 0xFFFF00FF = false ∧ isValidNetmask 0 = true ∧
      isValidNetmask 0xFFFFFFFF = true := by
  refine ⟨?_, by decide, by decide, by decide, by decide, by decide⟩
  have h := isValidNetmaskLoop_iff m 32 false le_rfl
  simp only [Nat.sub_self, Bool.false_eq_true, false_implies, true_and] at h
  unfold isValidNetmask
  rw [h]
  constructor
  · rintro h2 ⟨i, j, hji, hi, hb⟩
    exact h2 i j hji hi hb
  · intro h2 a b hba ha hb
    exact h2 ⟨a, b, hba, ha, hb⟩

/-! ## `parseNetmask` -/

theorem parseNetmask_atoi (v6 : List Nat → Option IPv4) (arg : List Nat) (cidr : Int)
    (h : atoi (trimSlash arg) = some cidr) :
    parseNetmask v6 arg =
      if cidr ≥ 0 ∧ cidr ≤ 32 then MaskResult.ok cidr
      else MaskResult.error (MaskError.invalidCIDR cidr) := by
  unfold parseNetmask
  rw [h]

theorem parseNetmask_ip (v6 : List Nat → Option IPv4) (arg : List Nat) (ip : IPv4)
    (h1 : atoi (trimSlash arg) = none) (h2 : parseIPTo4 v6 (trimSlash arg) = some ip) :
    parseNetmask v6 arg =
      if isValidNetmask (ipToUint32 ip) = true then
        MaskResult.ok (maskToCIDR (ipToUint32 ip))
      else if isValidNetmask (not32 (ipToUint32 ip)) = true then
        MaskResult.ok (maskToCIDR (not32 (ipToUint32 ip)))
      else MaskResult.error MaskError.invalidNetmask := by
  unfold parseNetmask
  rw [h1, h2]

theorem parseNetmask_none (v6 : List Nat → Option IPv4) (arg : List Nat)
    (h1 : atoi (trimSlash arg) = none) (h2 : parseIPTo4 v6 (trimSlash arg) = none) :
    parseNetmask v6 arg = MaskResult.error MaskError.invalidNetmask := by
  unfold parseNetmask
  rw [h1, h2]

theorem parseIPTo4_dot (v6 : List Nat → Option IPv4) (s : List Nat)
    (h : firstSep s = some 46) : parseIPTo4 v6 s = parseIPv4 s := by
  unfold parseIPTo4
  rw [h]
  simp

theorem parseIPTo4_nosep (v6 : List Nat → Option IPv4) (s : List Nat)
    (h : firstSep s = none) : parseIPTo4 v6 s = none := by
  unfold parseIPTo4
  rw [h]

theorem parseIPTo4_mapped (v6 : List Nat → Option IPv4) (s q : List Nat) (ip : IPv4)
    (h : firstSep s = some 58) (hq : stripHead (ascii "::ffff:") s = some q)
    (hp : parseIPv4 q = some ip) : parseIPTo4 v6 s = some ip := by
  unfold parseIPTo4
  rw [h]
  simp only [hq, hp]
  simp

/-- C19: for every `n` in `[0, 32]`, `parseNetmask` returns `n` for the
decimal text of `n` and for that text after a single `/`. -/
theorem C19_parseNetmask_decimal (v6 : List Nat → Option IPv4) (n : Nat) (hn : n ≤ 32) :
    parseNetmask v6 (decimalText n) = MaskResult.ok (n : Int) ∧
      parseNetmask v6 (47 :: decimalText n) = MaskResult.ok (n : Int) := by
  have h1 : atoi (trimSlash (decimalText n)) = some (n : Int) := by
    interval_cases n <;> rfl
  have h2 : atoi (trimSlash (47 :: decimalText n)) = some (n : Int) := by
    interval_cases n <;> rfl
  have hr : (n : Int) ≥ 0 ∧ (n : Int) ≤ 32 := by omega
  rw [parseNetmask_atoi v6 _ _ h1, parseNetmask_atoi v6 _ _ h2, if_pos hr]
  exact ⟨rfl, rfl⟩

/-- C19 for the texts `"24"` and `"/24"`. -/
theorem C19_parseNetmask_decimal_witness :
    (24 : Nat) ≤ 32 ∧ decimalText 24 = ascii "24" ∧ 47 :: decimalText 24 = ascii "/24" ∧
      parseNetmask (fun _ => none) (decimalText 24) = MaskResult.ok 24 ∧
      parseNetmask (fun _ => none) (47 :: decimalText 24) = MaskResult.ok 24 :=
  ⟨by decide, by decide, by decide,
    (C19_parseNetmask_decimal (fun _ => none) 24 (by decide)).1,
    (C19_parseNetmask_decimal (fun _ => none) 24 (by decide)).2⟩

/-! ## Dotted quad texts -/

theorem digitsValue_dot (ds rest : List Nat) (hds : ∀ c ∈ ds, 48 ≤ c ∧ c ≤ 57) :
    ∀ acc, digitsValue (ds ++ 46 :: rest) acc = none := by
  induction ds with
  | nil => intro acc; simp [digitsValue]
  | cons c cs ih =>
    intro acc
    have hc := hds c (by simp)
    simp only [List.cons_append, digitsValue, if_pos hc]
    exact ih (fun x hx => hds x (by simp [hx])) _

theorem firstSep_digits_dot (ds rest : List Nat) (hds : ∀ c ∈ ds, 48 ≤ c ∧ c ≤ 57) :
    firstSep (ds ++ 46 :: rest) = some 46 := by
  induction ds with
  | nil => simp [firstSep]
  | cons c cs ih =>
    have hc := hds c (by simp)
    have hne : ¬ (c = 46 ∨ c = 58 ∨ c = 37) := by omega
    simp only [List.cons_append, firstSep, if_neg hne]
    exact ih (fun x hx => hds x (by simp [hx]))

theorem parseIPv4Loop_digits (ds rest : List Nat) (hds : ∀ c ∈ ds, 48 ≤ c ∧ c ≤ 57)
    (fields : List Nat) : ∀ val digLen,
    parseIPv4Loop (ds ++ rest) val digLen fields =
      match octetScan ds val digLen with
      | some r => parseIPv4Loop rest r.1 r.2 fields
      | none => none := by
  induction ds with
  | nil => intro val digLen; simp [octetScan]
  | cons c cs ih =>
    intro val digLen
    have hc := hds c (by simp)
    have ih' := ih (fun x hx => hds x (by simp [hx]))
    simp only [List.cons_append, parseIPv4Loop, if_pos hc, octetScan]
    by_cases h1 : digLen = 1 ∧ val = 0
    · simp [h1]
    · rw [if_neg h1, if_neg h1]
      by_cases h2 : val * 10 + (c - 48) > 255
      · rw [if_pos h2, if_pos h2]
      · rw [if_neg h2, if_neg h2]
        exact ih' _ _

theorem parseIPv4Loop_dot (rest : List Nat) (val digLen : Nat) (fields : List Nat)
    (h1 : digLen ≠ 0) (h2 : rest ≠ []) (h3 : fields.length ≠ 3) :
    parseIPv4Loop (46 :: rest) val digLen fields =
      parseIPv4Loop rest 0 0 (fields ++ [val]) := by
  simp [parseIPv4Loop, h1, h2, h3]

/-- The decimal text of an octet is a non-empty run of digits that the field
scan reads back as the octet. -/
theorem decimalText_octet (x : Nat) (hx : x < 256) :
    (∀ c ∈ decimalText x, 48 ≤ c ∧ c ≤ 57) ∧
      (∃ l, l ≠ 0 ∧ octetScan (decimalText x) 0 0 = some (x, l)) ∧
      decimalText x ≠ [] := by
  interval_cases x <;> exact ⟨by decide, ⟨_, by decide, rfl⟩, by decide⟩

theorem parseIPv4_dottedQuad (a b c d : Nat) (ha : a < 256) (hb : b < 256) (hc : c < 256)
    (hd : d < 256) :
    parseIPv4 (dottedQuad a b c d) = some { b0 := a, b1 := b, b2 := c, b3 := d } := by
  obtain ⟨hda, ⟨la, hla, hsa⟩, -⟩ := decimalText_octet a ha
  obtain ⟨hdb, ⟨lb, hlb, hsb⟩, hnb⟩ := decimalText_octet b hb
  obtain ⟨hdc, ⟨lc, hlc, hsc⟩, hnc⟩ := decimalText_octet c hc
  obtain ⟨hdd, ⟨ld, hld, hsd⟩, hnd⟩ := decimalText_octet d hd
  unfold parseIPv4 dottedQuad
  rw [parseIPv4Loop_digits _ _ hda, hsa]
  simp only
  rw [parseIPv4Loop_dot _ _ _ _ hla (by simp [hnb]) (by simp)]
  rw [parseIPv4Loop_digits _ _ hdb, hsb]
  simp only
  rw [parseIPv4Loop_dot _ _ _ _ hlb (by simp [hnc]) (by simp)]
  rw [parseIPv4Loop_digits _ _ hdc, hsc]
  simp only
  rw [parseIPv4Loop_dot _ _ _ _ hlc hnd (by simp)]
  have hfin := parseIPv4Loop_digits (decimalText d) [] hdd ([] ++ [a] ++ [b] ++ [c]) 0 0
  rw [List.append_nil, hsd] at hfin
  rw [hfin]
  simp [parseIPv4Loop]

theorem dottedQuad_not_integer (a b c d : Nat) (ha : a < 256) :
    trimSlash (dottedQuad a b c d) = dottedQuad a b c d ∧
      atoi (dottedQuad a b c d) = none ∧
      firstSep (dottedQuad a b c d) = some 46 := by
  obtain ⟨hda, -, hna⟩ := decimalText_octet a ha
  have hdv := digitsValue_dot (decimalText a)
    (decimalText b ++ 46 :: (decimalText c ++ 46 :: decimalText d)) hda 0
  have hfs := firstSep_digits_dot (decimalText a)
    (decimalText b ++ 46 :: (decimalText c ++ 46 :: decimalText d)) hda
  unfold dottedQuad
  cases htxt : decimalText a with
  | nil => exact absurd htxt hna
  | cons c0 cs =>
    have hc0 : 48 ≤ c0 ∧ c0 ≤ 57 := hda c0 (by rw [htxt]; simp)
    rw [htxt] at hdv hfs
    refine ⟨?_, ?_, hfs⟩
    · simp only [List.cons_append, trimSlash]
      rw [if_neg (by omega)]
    · simp only [List.cons_append, atoi] at hdv ⊢
      rw [if_neg (by omega), if_neg (by omega), hdv]
      rfl

theorem parseNetmask_dottedQuad (v6 : List Nat → Option IPv4) (a b c d : Nat)
    (ha : a < 256) (hb : b < 256) (hc : c < 256) (hd : d < 256) :
    parseNetmask v6 (dottedQuad a b c d) =
      if isValidNetmask (ipToUint32 { b0 := a, b1 := b, b2 := c, b3 := d }) = true then
        MaskResult.ok (maskToCIDR (ipToUint32 { b0 := a, b1 := b, b2 := c, b3 := d }))
      else if isValidNetmask
          (not32 (ipToUint32 { b0 := a, b1 := b, b2 := c, b3 := d })) = true then
        MaskResult.ok
          (maskToCIDR (not32 (ipToUint32 { b0 := a, b1 := b, b2 := c, b3 := d })))
      else MaskResult.error MaskError.invalidNetmask := by
  obtain ⟨ht, hat, hfs⟩ := dottedQuad_not_integer a b c d ha
  apply parseNetmask_ip
  · rw [ht]; exact hat
  · rw [ht, parseIPTo4_dot v6 _ hfs]
    exact parseIPv4_dottedQuad a b c d ha hb hc hd

theorem ipToUint32_eq (a b c d : Nat) (ha : a < 256) (hb : b < 256) (hc : c < 256)
    (hd : d < 256) :
    ipToUint32 { b0 := a, b1 := b, b2 := c, b3 := d } =
      a * 2 ^ 24 + b * 2 ^ 16 + c * 2 ^ 8 + d := by
  unfold ipToUint32 shl32
  simp only [Nat.shiftLeft_eq]
  have e1 : a * 2 ^ 24 % 2 ^ 32 = a * 2 ^ 24 := Nat.mod_eq_of_lt (by omega)
  have e2 : b * 2 ^ 16 % 2 ^ 32 = b * 2 ^ 16 := Nat.mod_eq_of_lt (by omega)
  have e3 : c * 2 ^ 8 % 2 ^ 32 = c * 2 ^ 8 := Nat.mod_eq_of_lt (by omega)
  have e4 : d % 2 ^ 32 = d := Nat.mod_eq_of_lt (by omega)
  rw [e1, e2, e3, e4]
  rw [lor_eq_add (a * 2 ^ 24) (b * 2 ^ 16) 24 (by omega) (by omega),
    lor_eq_add (a * 2 ^ 24 + b * 2 ^ 16) (c * 2 ^ 8) 16 (by omega) (by omega),
    lor_eq_add (a * 2 ^ 24 + b * 2 ^ 16 + c * 2 ^ 8) d 8 (by omega) (by omega)]

/-- C18: for the dotted quad text `a.b.c.d` with octets below 256, whose
value is `m = ipToUint32 (a, b, c, d) = a * 2 ^ 24 + b * 2 ^ 16 + c * 2 ^ 8 + d`:
when `isValidNetmask m`, `parseNetmask` returns `maskToCIDR m`; otherwise,
when `isValidNetmask (^m)`, it returns `maskToCIDR (^m)`. So `"0.0.0.0"`
gives 0, `"255.255.255.255"` gives 32 and `"0.0.0.255"` gives 24. -/
theorem C18_parseNetmask_dotted_quad (v6 : List Nat → Option IPv4) (a b c d : Nat)
    (ha : a < 256) (hb : b < 256) (hc : c < 256) (hd : d < 256) :
    ipToUint32 { b0 := a, b1 := b, b2 := c, b3 := d } =
        a * 2 ^ 24 + b * 2 ^ 16 + c * 2 ^ 8 + d ∧
      (isValidNetmask (ipToUint32 { b0 := a, b1 := b, b2 := c, b3 := d }) = true →
        parseNetmask v6 (dottedQuad a b c d) =
          MaskResult.ok (maskToCIDR (ipToUint32 { b0 := a, b1 := b, b2 := c, b3 := d }))) ∧
      (isValidNetmask (ipToUint32 { b0 := a, b1 := b, b2 := c, b3 := d }) = false →
        isValidNetmask (not32 (ipToUint32 { b0 := a, b1 := b, b2 := c, b3 := d })) = true →
        parseNetmask v6 (dottedQuad a b c d) =
          MaskResult.ok
            (maskToCIDR (not32 (ipToUint32 { b0 := a, b1 := b, b2 := c, b3 := d })))) ∧
      (dottedQuad 0 0 0 0 = ascii "0.0.0.0" ∧
        parseNetmask v6 (ascii "0.0.0.0") = MaskResult.ok 0) ∧
      (dottedQuad 255 255 255 255 = ascii "255.255.255.255" ∧
        parseNetmask v6 (ascii "255.255.255.255") = MaskResult.ok 32) ∧
      (dottedQuad 0 0 0 255 = ascii "0.0.0.255" ∧
        parseNetmask v6 (ascii "0.0.0.255") = MaskResult.ok 24) := by
  have hmain := parseNetmask_dottedQuad v6 a b c d ha hb hc hd
  have ex1 : dottedQuad 0 0 0 0 = ascii "0.0.0.0" := by decide
  have ex2 : dottedQuad 255 255 255 255 = ascii "255.255.255.255" := by decide
  have ex3 : dottedQuad 0 0 0 255 = ascii "0.0.0.255" := by decide
  refine ⟨ipToUint32_eq a b c d ha hb hc hd, ?_, ?_, ⟨ex1, ?_⟩, ⟨ex2, ?_⟩, ⟨ex3, ?_⟩⟩
  · intro hv
    rw [hmain, if_pos hv]
  · intro hv hw
    rw [hmain, if_neg (by rw [hv]; exact Bool.false_ne_true), if_pos hw]
  · rw [← ex1, parseNetmask_dottedQuad v6 0 0 0 0 (by decide) (by decide) (by decide)
      (by decide)]
    decide
  · rw [← ex2, parseNetmask_dottedQuad v6 255 255 255 255 (by decide) (by decide)
      (by decide) (by decide)]
    decide
  · rw [← ex3, parseNetmask_dottedQuad v6 0 0 0 255 (by decide) (by decide) (by decide)
      (by decide)]
    decide

/-- C18 for the texts `"255.255.240.0"` (a netmask, length 20) and
`"0.15.255.255"` (a wildcard mask, length 12). -/
theorem C18_parseNetmask_dotted_quad_witness :
    (255 : Nat) < 256 ∧ (240 : Nat) < 256 ∧ (0 : Nat) < 256 ∧ (15 : Nat) < 256 ∧
      dottedQuad 255 255 240 0 = ascii "255.255.240.0" ∧
      parseNetmask (fun _ => none) (dottedQuad 255 255 240 0) = MaskResult.ok 20 ∧
      dottedQuad 0 15 255 255 = ascii "0.15.255.255" ∧
      parseNetmask (fun _ => none) (dottedQuad 0 15 255 255) = MaskResult.ok 12 :=
  ⟨by decide, by decide, by decide, by decide, by decide,
    (C18_parseNetmask_dotted_quad (fun _ => none) 255 255 240 0 (by decide) (by decide)
      (by decide) (by decide)).2.1 (by decide),
    by decide,
    (C18_parseNetmask_dotted_quad (fun _ => none) 0 15 255 255 (by decide) (by decide)
      (by decide) (by decide)).2.2.1 (by decide) (by decide)⟩

/-- The inputs `parseNetmask` does reject: an integer text outside `[0, 32]`,
a dotted quad that is neither a netmask nor a wildcard mask, and a text that
neither `strconv.Atoi` nor `net.ParseIP` followed by `To4` accepts. -/
theorem parseNetmask_rejects (v6 : List Nat → Option IPv4) :
    (∀ arg cidr, atoi (trimSlash arg) = some cidr → ¬ (0 ≤ cidr ∧ cidr ≤ 32) →
        parseNetmask v6 arg = MaskResult.error (MaskError.invalidCIDR cidr)) ∧
      (∀ a b c d, a < 256 → b < 256 → c < 256 → d < 256 →
        isValidNetmask (ipToUint32 { b0 := a, b1 := b, b2 := c, b3 := d }) = false →
        isValidNetmask (not32 (ipToUint32 { b0 := a, b1 := b, b2 := c, b3 := d })) = false →
        parseNetmask v6 (dottedQuad a b c d) = MaskResult.error MaskError.invalidNetmask) ∧
      (∀ arg, atoi (trimSlash arg) = none → parseIPTo4 v6 (trimSlash arg) = none →
        parseNetmask v6 arg = MaskResult.error MaskError.invalidNetmask) := by
  refine ⟨?_, ?_, ?_⟩
  · intro arg cidr h hr
    rw [parseNetmask_atoi v6 arg cidr h, if_neg (by omega)]
  · intro a b c d ha hb hc hd h1 h2
    rw [parseNetmask_dottedQuad v6 a b c d ha hb hc hd,
      if_neg (by rw [h1]; exact Bool.false_ne_true),
      if_neg (by rw [h2]; exact Bool.false_ne_true)]
  · intro arg h1 h2
    exact parseNetmask_none v6 arg h1 h2

/-- C20 (evaluation at the failing input): the text `"::ffff:255.255.255.0"`
is not an integer (`Atoi` fails) and not an IPv4 dotted quad (the IPv4 parser
fails), yet `net.ParseIP` reads it as an IPv4-mapped IPv6 address whose `To4`
is `255.255.255.0`, so `parseNetmask` returns 24 and no error. The other
examples of the claim, `"33"`, `"-1"`, `"255.0.255.0"`, `"invalid"` and
`"256.256.256.256"`, are rejected. -/
theorem C20_parseNetmask_accepts_mapped_ipv6 (v6 : List Nat → Option IPv4) :
    atoi (trimSlash (ascii "::ffff:255.255.255.0")) = none ∧
      parseIPv4 (ascii "::ffff:255.255.255.0") = none ∧
      parseNetmask v6 (ascii "::ffff:255.255.255.0") = MaskResult.ok 24 ∧
      parseNetmask v6 (ascii "33") = MaskResult.error (MaskError.invalidCIDR 33) ∧
      parseNetmask v6 (ascii "-1") = MaskResult.error (MaskError.invalidCIDR (-1)) ∧
      parseNetmask v6 (ascii "255.0.255.0") = MaskResult.error MaskError.invalidNetmask ∧
      parseNetmask v6 (ascii "invalid") = MaskResult.error MaskError.invalidNetmask ∧
      parseNetmask v6 (ascii "256.256.256.256") =
        MaskResult.error MaskError.invalidNetmask := by
  have hq : stripHead (ascii "::ffff:") (trimSlash (ascii "::ffff:255.255.255.0")) =
      some (ascii "255.255.255.0") := by decide
  have hip : parseIPv4 (ascii "255.255.255.0") =
      some { b0 := 255, b1 := 255, b2 := 255, b3 := 0 } := by decide
  have hquad : ascii "255.0.255.0" = dottedQuad 255 0 255 0 := by decide
  refine ⟨by decide, by decide, ?_, ?_, ?_, ?_, ?_, ?_⟩
  · rw [parseNetmask_ip v6 _ _ (by decide)
      (parseIPTo4_mapped v6 _ _ _ (by decide) hq hip)]
    decide
  · rw [parseNetmask_atoi v6 _ 33 (by decide)]
    decide
  · rw [parseNetmask_atoi v6 _ (-1) (by decide)]
    decide
  · rw [hquad, parseNetmask_dottedQuad v6 255 0 255 0 (by decide) (by decide) (by decide)
      (by decide)]
    decide
  · exact parseNetmask_none v6 _ (by decide) (parseIPTo4_nosep v6 _ (by decide))
  · refine parseNetmask_none v6 _ (by decide) ?_
    rw [parseIPTo4_dot v6 _ (by decide)]
    decide

/-! ## What `cidrToMask` returns outside `[0, 32]` -/

/-- C21 as stated fails: `cidrToMask 33` is 0, which is also
`cidrToMask 0`, the valid mask of length 0. -/
theorem C21_counterexample_sentinel_is_mask_zero :
    ¬ ∀ (p q : Int), (p < 0 ∨ 32 < p) → 0 ≤ q → q ≤ 32 → cidrToMask p ≠ cidrToMask q := by
  intro h
  exact h 33 0 (by decide) (by decide) (by decide) (by decide)

/-- C21, amended: for every `p` outside `[0, 32]`, `cidrToMask p` is 0; it
differs from `cidrToMask q` for every `q` in `[1, 32]`, and equals
`cidrToMask 0`. -/
theorem C21_out_of_range_gives_zero (p : Int) (hp : p < 0 ∨ 32 < p) :
    cidrToMask p = 0 ∧ cidrToMask p = cidrToMask 0 ∧
      ∀ q : Int, 1 ≤ q → q ≤ 32 → cidrToMask p ≠ cidrToMask q := by
  have h0 : cidrToMask p = 0 := by
    unfold cidrToMask
    rw [if_pos (by omega)]
  refine ⟨h0, by rw [h0]; decide, ?_⟩
  intro q h1 h32
  rw [h0, cidrToMask_eq q (by omega) h32]
  have hlt : 2 ^ (32 - q).toNat < 2 ^ 32 := Nat.pow_lt_pow_right (by norm_num) (by omega)
  omega

/-- C21 (amended) at `p = -1`. -/
theorem C21_out_of_range_gives_zero_witness :
    ((-1 : Int) < 0 ∨ (32 : Int) < -1) ∧ cidrToMask (-1) = 0 ∧
      ∀ q : Int, 1 ≤ q → q ≤ 32 → cidrToMask (-1) ≠ cidrToMask q :=
  ⟨by decide, (C21_out_of_range_gives_zero (-1) (by decide)).1,
    (C21_out_of_range_gives_zero (-1) (by decide)).2.2⟩

/-! ## Addresses as four bytes -/

/-- C22: for octets `a.b.c.d`, `ipToUint32` is
`a * 2 ^ 24 + b * 2 ^ 16 + c * 2 ^ 8 + d`; `ipToUint32 (uint32ToIP n) = n` for
every 32-bit `n`; and `uint32ToIP (ipToUint32 ip) = ip` for every
four-byte address `ip`. -/
theorem C22_ip_uint32_roundtrip (n : Nat) (ip : IPv4) (hn : n < 2 ^ 32)
    (h0 : ip.b0 < 256) (h1 : ip.b1 < 256) (h2 : ip.b2 < 256) (h3 : ip.b3 < 256) :
    ipToUint32 ip = ip.b0 * 2 ^ 24 + ip.b1 * 2 ^ 16 + ip.b2 * 2 ^ 8 + ip.b3 ∧
      ipToUint32 (uint32ToIP n) = n ∧
      uint32ToIP (ipToUint32 ip) = ip := by
  have e1 := ipToUint32_eq ip.b0 ip.b1 ip.b2 ip.b3 h0 h1 h2 h3
  refine ⟨e1, ?_, ?_⟩
  · unfold uint32ToIP
    rw [ipToUint32_eq _ _ _ _ (Nat.mod_lt _ (by norm_num)) (Nat.mod_lt _ (by norm_num))
      (Nat.mod_lt _ (by norm_num)) (Nat.mod_lt _ (by norm_num))]
    simp only [Nat.shiftRight_eq_div_pow]
    omega
  · have e2 : ipToUint32 ip = ip.b0 * 2 ^ 24 + ip.b1 * 2 ^ 16 + ip.b2 * 2 ^ 8 + ip.b3 := e1
    rw [e2]
    unfold uint32ToIP
    simp only [Nat.shiftRight_eq_div_pow]
    cases ip with
    | mk a b c d =>
      simp only at h0 h1 h2 h3 ⊢
      congr 1 <;> omega

/-- C22 at `192.168.1.100`. -/
theorem C22_ip_uint32_roundtrip_witness :
    (0xC0A80164 : Nat) < 2 ^ 32 ∧
      ipToUint32 { b0 := 192, b1 := 168, b2 := 1, b3 := 100 } = 0xC0A80164 ∧
      ipToUint32 (uint32ToIP 0xC0A80164) = 0xC0A80164 ∧
      uint32ToIP (ipToUint32 { b0 := 192, b1 := 168, b2 := 1, b3 := 100 }) =
        { b0 := 192, b1 := 168, b2 := 1, b3 := 100 } :=
  ⟨by decide,
    (C22_ip_uint32_roundtrip 0xC0A80164 { b0 := 192, b1 := 168, b2 := 1, b3 := 100 }
      (by decide) (by decide) (by decide) (by decide) (by decide)).1,
    (C22_ip_uint32_roundtrip 0xC0A80164 { b0 := 192, b1 := 168, b2 := 1, b3 := 100 }
      (by decide) (by decide) (by decide) (by decide) (by decide)).2.1,
    (C22_ip_uint32_roundtrip 0xC0A80164 { b0 := 192, b1 := 168, b2 := 1, b3 := 100 }
      (by decide) (by decide) (by decide) (by decide) (by decide)).2.2⟩

/-! ## The mask of a length -/

/-- C23: for `p` in `[0, 32]`, `cidrToMask p = 2 ^ 32 - 2 ^ (32 - p)`, the
word whose bit `i` is one exactly for `32 - p ≤ i < 32` (the top `p` bits);
`cidrToMask 0 = 0` and `cidrToMask 32 = 0xFFFFFFFF`; for `p < 0` or `p > 32`,
`cidrToMask p = 0`. -/
theorem C23_cidrToMask_value (p : Int) :
    (0 ≤ p → p ≤ 32 →
        cidrToMask p = 2 ^ 32 - 2 ^ (32 - p).toNat ∧
        ∀ i : Nat, (cidrToMask p).testBit i = decide ((32 - p).toNat ≤ i ∧ i < 32)) ∧
      (p < 0 ∨ 32 < p → cidrToMask p = 0) ∧
      cidrToMask 0 = 0 ∧ cidrToMask 32 = 0xFFFFFFFF := by
  refine ⟨?_, ?_, by decide, by decide⟩
  · intro h0 h32
    refine ⟨cidrToMask_eq p h0 h32, ?_⟩
    intro i
    rw [cidrToMask_eq p h0 h32, testBit_high_mask _ i (by omega)]
    by_cases h1 : i < 32 <;> by_cases h2 : i < (32 - p).toNat <;> simp [h1, h2] <;> omega
  · intro hp
    unfold cidrToMask
    rw [if_pos (by omega)]

/-- C23 at `p = 24` and `p = 33`. -/
theorem C23_cidrToMask_value_witness :
    (0 : Int) ≤ 24 ∧ (24 : Int) ≤ 32 ∧
      cidrToMask 24 = 2 ^ 32 - 2 ^ (32 - (24 : Int)).toNat ∧ cidrToMask 33 = 0 :=
  ⟨by decide, by decide,
    ((C23_cidrToMask_value 24).1 (by decide) (by decide)).1,
    (C23_cidrToMask_value 33).2.1 (by decide)⟩

/-! ## Leading one-bits -/

theorem land_two_pow_ne_zero (m j : Nat) : m &&& 2 ^ j ≠ 0 ↔ m.testBit j = true := by
  constructor
  · intro h
    by_contra hcon
    apply h
    apply Nat.eq_of_testBit_eq
    intro i
    rw [Nat.testBit_and, Nat.testBit_two_pow, Nat.zero_testBit]
    by_cases hji : j = i
    · subst hji
      simp only [Bool.not_eq_true] at hcon
      simp [hcon]
    · simp [hji]
  · intro h hz
    have := congrArg (fun t => t.testBit j) hz
    simp only [Nat.testBit_and, Nat.testBit_two_pow, Nat.zero_testBit, h, decide_True,
      Bool.and_self] at this
    exact Bool.noConfusion this

theorem shl32_one (j : Nat) (hj : j < 32) : shl32 1 j = 2 ^ j := by
  unfold shl32
  rw [Nat.shiftLeft_eq, Nat.one_mul]
  exact Nat.mod_eq_of_lt (Nat.pow_lt_pow_right (by norm_num) hj)

/-- The loop of `maskToCIDR` entered at `i = cidr = 32 - n`: it returns the
first position, counted from the most significant bit, that holds a zero. -/
theorem maskToCIDRLoop_spec (m : Nat) : ∀ n, n ≤ 32 →
    32 - n ≤ maskToCIDRLoop m n (32 - n) (32 - n) ∧
      maskToCIDRLoop m n (32 - n) (32 - n) ≤ 32 ∧
      (∀ j, 32 - n ≤ j → j < maskToCIDRLoop m n (32 - n) (32 - n) →
        m.testBit (31 - j) = true) ∧
      (maskToCIDRLoop m n (32 - n) (32 - n) = 32 ∨
        m.testBit (31 - maskToCIDRLoop m n (32 - n) (32 - n)) = false) := by
  intro n
  induction n with
  | zero =>
    intro _
    have e : maskToCIDRLoop m 0 (32 - 0) (32 - 0) = 32 := rfl
    rw [e]
    exact ⟨by omega, le_rfl, fun j h1 h2 => by omega, Or.inl rfl⟩
  | succ n ih =>
    intro hn
    have hi : 32 - (n + 1) < 32 := by omega
    have hnext : 32 - (n + 1) + 1 = 32 - n := by omega
    have hpos : 31 - (32 - (n + 1)) = n := by omega
    unfold maskToCIDRLoop
    rw [if_pos hi, hpos, shl32_one n (by omega)]
    by_cases hbit : m &&& 2 ^ n ≠ 0
    · have htb := (land_two_pow_ne_zero m n).1 hbit
      rw [if_pos hbit, hnext]
      obtain ⟨h1, h2, h3, h4⟩ := ih (by omega)
      refine ⟨by omega, h2, ?_, h4⟩
      intro j hj hlt
      by_cases hje : j = 32 - (n + 1)
      · rw [hje, hpos]; exact htb
      · exact h3 j (by omega) hlt
    · have htb : m.testBit n = false := by
        have := (land_two_pow_ne_zero m n).not.1 hbit
        simpa using this
      rw [if_neg hbit]
      refine ⟨le_rfl, by omega, fun j h1 h2 => by omega, Or.inr ?_⟩
      rw [hpos]; exact htb

/-- C24: for every `m`, `maskToCIDR m` is a number `k` in `[0, 32]` such that
the `k` most significant bits of `m` (bits `31` down to `32 - k`) are one and
either `k = 32` or bit `31 - k` is zero; it is the only such `k`. For
example `maskToCIDR 0xFF00FF00 = 8`. -/
theorem C24_maskToCIDR_leading_ones (m : Nat) :
    ∃ k : Nat, maskToCIDR m = (k : Int) ∧ k ≤ 32 ∧
      (∀ j, j < k → m.testBit (31 - j) = true) ∧
      (k = 32 ∨ m.testBit (31 - k) = false) ∧
      (∀ k2 : Nat, k2 ≤ 32 → (∀ j, j < k2 → m.testBit (31 - j) = true) →
        (k2 = 32 ∨ m.testBit (31 - k2) = false) → k2 = k) ∧
      maskToCIDR 0xFF00FF00 = 8 := by
  obtain ⟨-, h2, h3, h4⟩ := maskToCIDRLoop_spec m 32 le_rfl
  simp only [Nat.sub_self] at h2 h3 h4
  refine ⟨maskToCIDRLoop m 32 0 0, rfl, h2, fun j hj => h3 j (Nat.zero_le _) hj, h4, ?_,
    by decide⟩
  intro k2 hk2 hones hstop
  rcases Nat.lt_trichotomy k2 (maskToCIDRLoop m 32 0 0) with hlt | heq | hgt
  · rcases hstop with h | h
    · omega
    · have := h3 k2 (Nat.zero_le _) hlt
      rw [h] at this
      exact Bool.noConfusion this
  · exact heq
  · rcases h4 with h | h
    · omega
    · have := hones _ hgt
      rw [h] at this
      exact Bool.noConfusion this

/-! ## `deaggregate` on an inverted range and on a range up to the last address -/

/-- C25 as stated fails: called with `start = 5 > end = 3`, `deaggregate`
leaves its loop at once; it prints no block and reports nothing. -/
theorem C25_counterexample_inverted_range_is_silent :
    (3 : Nat) < 5 ∧ deaggregate 0 5 3 = some [] ∧ deaggregate 10 5 3 = some [] := by
  refine ⟨by decide, by decide, by decide⟩

/-- C25, amended: called with `start > end`, `deaggregate` terminates without
an iteration and prints no block; it has no result value, so no error is
reported. -/
theorem C25_inverted_range_prints_nothing (fuel start end_ : Nat) (h : end_ < start) :
    deaggregate fuel start end_ = some [] := by
  unfold deaggregate
  cases fuel with
  | zero => simp only [deaggregateLoop]; rw [if_neg (by omega)]
  | succ f => simp only [deaggregateLoop]; rw [if_neg (by omega)]

/-- C25 (amended) for `10.0.0.9 - 10.0.0.1`. -/
theorem C25_inverted_range_prints_nothing_witness :
    (0x0A000001 : Nat) < 0x0A000009 ∧ deaggregate 100 0x0A000009 0x0A000001 = some [] :=
  ⟨by decide, C25_inverted_range_prints_nothing 100 0x0A000009 0x0A000001 (by decide)⟩

/-- C26 (evaluation at the failing input): for the range
`0.0.0.0 - 255.255.255.255` the loop condition `base <= end` holds for every
32-bit `base`, so no number of iterations ends the loop. -/
theorem C26_no_termination_up_to_last_address :
    (0 : Nat) ≤ 0xFFFFFFFF ∧ (∀ fuel, deaggregate fuel 0 0xFFFFFFFF = none) ∧
      (∀ fuel, deaggregate fuel 0xFFFFFF00 0xFFFFFFFF = none) := by
  refine ⟨by decide, ?_, ?_⟩
  · intro fuel
    exact deaggregateLoop_top fuel 0 (by norm_num)
  · intro fuel
    exact deaggregateLoop_top fuel 0xFFFFFF00 (by norm_num)

/-! ## Sorting and contiguous packing -/

theorem assignNets_size (l : List NetInfo) : ∀ cur : Nat,
    (assignNets cur l).1.map NetInfo.size = l.map NetInfo.size := by
  induction l with
  | nil => intro cur; rfl
  | cons n rest ih =>
    intro cur
    simp only [assignNets, List.map_cons]
    rw [ih]

theorem assignNets_head (l : List NetInfo) (cur : Nat) :
    ∀ a, (assignNets cur l).1[0]? = some a → a.net = cur := by
  cases l with
  | nil => intro a h; simp [assignNets] at h
  | cons n rest =>
    intro a h
    simp only [assignNets, List.getElem?_cons_zero, Option.some.injEq] at h
    rw [← h]

theorem add32_toUint32_cast (cur : Nat) (s : Int) :
    ((add32 cur (toUint32 s) : Nat) : Int) = ((cur : Int) + s) % 2 ^ 32 := by
  unfold add32 toUint32
  omega

theorem assignNets_step (l : List NetInfo) : ∀ (cur i : Nat) (a b : NetInfo),
    (assignNets cur l).1[i]? = some a → (assignNets cur l).1[i + 1]? = some b →
    (b.net : Int) = ((a.net : Int) + a.size) % 2 ^ 32 := by
  induction l with
  | nil => intro cur i a b h; simp [assignNets] at h
  | cons n rest ih =>
    intro cur i a b ha hb
    simp only [assignNets, List.getElem?_cons_succ] at hb
    cases i with
    | zero =>
      simp only [assignNets, List.getElem?_cons_zero, Option.some.injEq] at ha
      have hnet := assignNets_head rest _ b hb
      rw [hnet, ← ha]
      exact add32_toUint32_cast cur n.size
    | succ k =>
      simp only [assignNets, List.getElem?_cons_succ] at ha
      exact ih _ k a b ha hb

/-- C27: after the sort the block sizes are in non-increasing order and are
a permutation of the per-request sizes `round2PowerOf2 (c + 2)` (`c + 2` in
`int` arithmetic); the first block is placed at `network`, and each later
block at the previous block's address plus the previous block's size,
modulo `2 ^ 32`. -/
theorem C27_sorted_permutation_and_contiguous (network : Nat) (mask1 : Int)
    (sizes : List Int) :
    List.Pairwise (fun x y : Int => y ≤ x)
        ((splitNetwork network mask1 sizes).nets.map NetInfo.size) ∧
      List.Perm ((splitNetwork network mask1 sizes).nets.map NetInfo.size)
        (sizes.map (fun c => round2PowerOf2 (wrapInt (c + 2)))) ∧
      (splitNetwork network mask1 sizes).nets.length = sizes.length ∧
      (∀ a, (splitNetwork network mask1 sizes).nets[0]? = some a → a.net = network) ∧
      (∀ (i : Nat) (a b : NetInfo),
        (splitNetwork network mask1 sizes).nets[i]? = some a →
        (splitNetwork network mask1 sizes).nets[i + 1]? = some b →
        (b.net : Int) = ((a.net : Int) + a.size) % 2 ^ 32) := by
  have hsz : (splitNetwork network mask1 sizes).nets.map NetInfo.size =
      (sortNets (buildNets sizes)).map NetInfo.size := assignNets_size _ _
  have hperm : List.Perm ((sortNets (buildNets sizes)).map NetInfo.size)
      (sizes.map (fun c => round2PowerOf2 (wrapInt (c + 2)))) := by
    have h1 := (sortNets_perm (buildNets sizes)).map NetInfo.size
    have h2 : (buildNets sizes).map NetInfo.size =
        sizes.map (fun c => round2PowerOf2 (wrapInt (c + 2))) := by
      simp [buildNets, List.map_map, Function.comp_def]
    rw [h2] at h1
    exact h1
  refine ⟨?_, ?_, ?_, ?_, ?_⟩
  · rw [hsz, List.pairwise_map]
    exact sortNets_sorted _
  · rw [hsz]; exact hperm
  · have h1 := congrArg List.length hsz
    have h2 := hperm.length_eq
    simp only [List.length_map] at h1 h2
    omega
  · exact assignNets_head _ _
  · exact assignNets_step _ _

/-! ## One iteration of `deaggregate` -/

theorem lor_two_pow_eq_iff (x s : Nat) : x ||| 2 ^ s = x ↔ x.testBit s = true := by
  constructor
  · intro h
    have := congrArg (fun t => t.testBit s) h
    simp only [Nat.testBit_or, Nat.testBit_two_pow, decide_True, Bool.or_true] at this
    exact this.symm
  · intro h
    apply Nat.eq_of_testBit_eq
    intro i
    rw [Nat.testBit_or, Nat.testBit_two_pow]
    by_cases hsi : s = i
    · subst hsi; simp [h]
    · simp [hsi]

theorem mod_succ_of_testBit (x s : Nat) (hm : x % 2 ^ s = 2 ^ s - 1)
    (hb : x.testBit s = true) : x % 2 ^ (s + 1) = 2 ^ (s + 1) - 1 := by
  rw [Nat.testBit_to_div_mod, decide_eq_true_eq] at hb
  rw [Nat.mod_pow_succ, hm, hb, pow_succ]
  have : 0 < 2 ^ s := Nat.two_pow_pos s
  omega

/-- The inner loop only advances over one-bits of `base`: when the low
`step` bits of `base` are ones on entry, the low `S` bits are ones for the
value `S` it returns, and `S` is at most 32. -/
theorem deaggStep_spec (base end_ : Nat) : ∀ (fuel step : Nat), step ≤ 32 →
    base % 2 ^ step = 2 ^ step - 1 →
    step ≤ deaggStep base end_ fuel step ∧ deaggStep base end_ fuel step ≤ 32 ∧
      base % 2 ^ deaggStep base end_ fuel step = 2 ^ deaggStep base end_ fuel step - 1 := by
  intro fuel
  induction fuel with
  | zero => intro step hs hm; exact ⟨le_rfl, hs, hm⟩
  | succ f ih =>
    intro step hs hm
    unfold deaggStep
    by_cases hlt : step < 32
    · rw [if_pos hlt, shl32_one step hlt]
      by_cases htest : (base ||| 2 ^ step) ≠ base
      · rw [if_pos htest]; exact ⟨le_rfl, hs, hm⟩
      · rw [if_neg htest]
        have hbit : base.testBit step = true :=
          (lor_two_pow_eq_iff base step).1 (not_not.1 htest)
        split
        · exact ⟨le_rfl, hs, hm⟩
        · obtain ⟨h1, h2, h3⟩ := ih (step + 1) (by omega)
            (mod_succ_of_testBit base step hm hbit)
          exact ⟨by omega, h2, h3⟩
    · rw [if_neg hlt]; exact ⟨le_rfl, hs, hm⟩

theorem deaggStep_le (base end_ : Nat) :
    deaggStep base end_ 32 0 ≤ 32 ∧
      base % 2 ^ deaggStep base end_ 32 0 = 2 ^ deaggStep base end_ 32 0 - 1 := by
  obtain ⟨-, h2, h3⟩ := deaggStep_spec base end_ 32 0 (by omega) (by simp [Nat.mod_one])
  exact ⟨h2, h3⟩

theorem deaggStep_even (base end_ : Nat) (he : base % 2 = 0) :
    deaggStep base end_ 32 0 = 0 := by
  have hb : base.testBit 0 = false := by
    rw [Nat.testBit_zero]; simp [he]
  have htest : (base ||| 2 ^ 0) ≠ base := by
    intro h
    have := (lor_two_pow_eq_iff base 0).1 h
    rw [hb] at this
    exact Bool.noConfusion this
  unfold deaggStep
  rw [if_pos (by norm_num), shl32_one 0 (by norm_num), if_pos htest]

/-- Below the last address the step is at most 31 and adding `2 ^ S` to
`base` does not wrap. -/
theorem deagg_advance (base S : Nat) (hS : S ≤ 32) (hb : base < 2 ^ 32 - 1)
    (hm : base % 2 ^ S = 2 ^ S - 1) :
    S ≤ 31 ∧ base + 2 ^ S ≤ 2 ^ 32 - 1 ∧ add32 base (shl32 1 S) = base + 2 ^ S := by
  have hS31 : S ≤ 31 := by
    by_contra hcon
    have h32 : S = 32 := by omega
    rw [h32, Nat.mod_eq_of_lt (by omega)] at hm
    omega
  have hpos : 0 < 2 ^ S := Nat.two_pow_pos S
  have hmod1 : (base + 1) % 2 ^ S = 0 := by
    have hd := Nat.div_add_mod base (2 ^ S)
    rw [hm] at hd
    have e : base + 1 = 2 ^ S * (base / 2 ^ S + 1) := by
      rw [Nat.mul_add, Nat.mul_one]; omega
    rw [e]
    exact Nat.mul_mod_right _ _
  have hfit := aligned_add_le (base + 1) S hS (by omega) hmod1
  refine ⟨hS31, by omega, ?_⟩
  unfold add32
  rw [shl32_one S (by omega)]
  exact Nat.mod_eq_of_lt (by omega)

theorem lor_low_ones (x S : Nat) (hm : x % 2 ^ S = 2 ^ S - 1) : x ||| (2 ^ S - 1) = x := by
  apply Nat.eq_of_testBit_eq
  intro i
  rw [Nat.testBit_or, Nat.testBit_two_pow_sub_one]
  by_cases hi : i < S
  · have h1 : (x % 2 ^ S).testBit i = x.testBit i := by
      rw [Nat.testBit_mod_two_pow]; simp [hi]
    rw [hm, Nat.testBit_two_pow_sub_one] at h1
    simp [hi] at h1
    simp [hi, ← h1]
  · simp [hi]

theorem lor_not_mask_of_ones (x S : Nat) (hS : S ≤ 32) (hm : x % 2 ^ S = 2 ^ S - 1) :
    x ||| not32 (cidrToMask (32 - (S : Int))) = x := by
  rw [not32_cidrToMask _ (by omega) (by omega)]
  have e : (32 - (32 - (S : Int))).toNat = S := by omega
  rw [e]
  exact lor_low_ones x S hm

/-! ## Runs of `deaggregate` below the last address -/

/-- What a finished run of the outer loop from `base` has printed, when
`end` is below `0xFFFFFFFF`. -/
theorem deaggregateLoop_run (end_ : Nat) (he : end_ < 2 ^ 32 - 1) :
    ∀ (fuel base : Nat) (bs : List (Nat × Int)),
    deaggregateLoop end_ fuel base = some bs →
    (∀ b ∈ bs, base ≤ b.1 ∧ b.1 ≤ end_ ∧
        b.2 = 32 - (deaggStep b.1 end_ 32 0 : Int) ∧ deaggStep b.1 end_ 32 0 ≤ 31 ∧
        b.1 % 2 ^ deaggStep b.1 end_ 32 0 = 2 ^ deaggStep b.1 end_ 32 0 - 1) ∧
      List.Pairwise (fun x y : Nat × Int => x.1 < y.1) bs ∧
      bs.length ≤ end_ + 1 - base ∧ (base ≤ end_ → bs ≠ []) := by
  intro fuel
  induction fuel with
  | zero =>
    intro base bs h
    unfold deaggregateLoop at h
    by_cases hle : base ≤ end_
    · rw [if_pos hle] at h; exact Option.noConfusion h
    · rw [if_neg hle, Option.some.injEq] at h
      subst h
      exact ⟨by simp, List.Pairwise.nil, by simp, fun h => absurd h hle⟩
  | succ f ih =>
    intro base bs h
    unfold deaggregateLoop at h
    by_cases hle : base ≤ end_
    · rw [if_pos hle, Option.map_eq_some'] at h
      obtain ⟨rest, hrest, hbs⟩ := h
      obtain ⟨hS, hm⟩ := deaggStep_le base end_
      obtain ⟨hS31, hnw, hadv⟩ := deagg_advance base _ hS (by omega) hm
      rw [hadv] at hrest
      have hpos : 0 < 2 ^ deaggStep base end_ 32 0 := Nat.two_pow_pos _
      obtain ⟨ih1, ih2, ih3, -⟩ := ih _ rest hrest
      subst hbs
      refine ⟨?_, ?_, ?_, fun _ => by simp⟩
      · intro b hb
        rw [List.mem_cons] at hb
        rcases hb with rfl | hb
        · exact ⟨le_rfl, hle, rfl, hS31, hm⟩
        · obtain ⟨h1, h2⟩ := ih1 b hb
          exact ⟨by omega, h2⟩
      · rw [List.pairwise_cons]
        refine ⟨?_, ih2⟩
        intro b hb
        have := (ih1 b hb).1
        simp only
        omega
      · simp only [List.length_cons]
        omega
    · rw [if_neg hle, Option.some.injEq] at h
      subst h
      exact ⟨by simp, List.Pairwise.nil, by simp, fun h => absurd h hle⟩

/-- Below the last address the outer loop ends within `end + 1 - base`
iterations. -/
theorem deaggregateLoop_terminates (end_ : Nat) (he : end_ < 2 ^ 32 - 1) :
    ∀ (fuel base : Nat), end_ + 1 - base ≤ fuel →
    ∃ bs, deaggregateLoop end_ fuel base = some bs := by
  intro fuel
  induction fuel with
  | zero =>
    intro base h
    unfold deaggregateLoop
    rw [if_neg (by omega)]
    exact ⟨[], rfl⟩
  | succ f ih =>
    intro base h
    unfold deaggregateLoop
    by_cases hle : base ≤ end_
    · rw [if_pos hle]
      obtain ⟨hS, hm⟩ := deaggStep_le base end_
      obtain ⟨-, hnw, hadv⟩ := deagg_advance base _ hS (by omega) hm
      have hpos : 0 < 2 ^ deaggStep base end_ 32 0 := Nat.two_pow_pos _
      rw [hadv]
      obtain ⟨rest, hrest⟩ := ih (base + 2 ^ deaggStep base end_ 32 0) (by omega)
      rw [hrest]
      exact ⟨_, rfl⟩
    · rw [if_neg hle]
      exact ⟨[], rfl⟩

theorem deaggregateLoop_blocks (end_ : Nat) : ∀ (fuel base : Nat) (bs : List (Nat × Int)),
    base < 2 ^ 32 → deaggregateLoop end_ fuel base = some bs →
    ∀ b ∈ bs, b.1 < 2 ^ 32 ∧ b.2 = 32 - (deaggStep b.1 end_ 32 0 : Int) := by
  intro fuel
  induction fuel with
  | zero =>
    intro base bs _ h
    unfold deaggregateLoop at h
    split at h
    · exact Option.noConfusion h
    · rw [Option.some.injEq] at h
      subst h
      simp
  | succ f ih =>
    intro base bs hb h
    unfold deaggregateLoop at h
    split at h
    · rw [Option.map_eq_some'] at h
      obtain ⟨rest, hrest, hbs⟩ := h
      subst hbs
      intro b hmem
      rw [List.mem_cons] at hmem
      rcases hmem with rfl | hmem
      · exact ⟨hb, rfl⟩
      · exact ih _ rest (add32_lt _ _) hrest b hmem
    · rw [Option.some.injEq] at h
      subst h
      simp

/-- C28: when `deaggregate` terminates on a range `start ≤ end`, it has
printed at least one block; every printed length `q` is in `[0, 32]`, every
printed address `a` satisfies `start ≤ a` and `a | ^cidrToMask(q) ≤ end`, and
each block's address is above `a' | ^cidrToMask(q')` of every block `(a', q')`
printed before it, in particular of the one just before it. -/
theorem C28_terminating_run_in_range (fuel start end_ : Nat) (bs : List (Nat × Int))
    (hse : start ≤ end_) (he : end_ < 2 ^ 32)
    (hrun : deaggregate fuel start end_ = some bs) :
    bs ≠ [] ∧
      (∀ b ∈ bs, 0 ≤ b.2 ∧ b.2 ≤ 32 ∧ start ≤ b.1 ∧
        b.1 ||| not32 (cidrToMask b.2) ≤ end_) ∧
      List.Pairwise (fun x y : Nat × Int => x.1 ||| not32 (cidrToMask x.2) < y.1) bs ∧
      List.Chain' (fun x y : Nat × Int => x.1 ||| not32 (cidrToMask x.2) < y.1) bs := by
  unfold deaggregate at hrun
  have hne : end_ ≠ 0xFFFFFFFF := by
    intro h
    rw [h, deaggregateLoop_top fuel start (by omega)] at hrun
    exact Option.noConfusion hrun
  obtain ⟨h1, h2, -, h4⟩ := deaggregateLoop_run end_ (by omega) fuel start bs hrun
  have hself : ∀ b ∈ bs, b.1 ||| not32 (cidrToMask b.2) = b.1 := by
    intro b hb
    obtain ⟨-, -, hq, hS, hm⟩ := h1 b hb
    rw [hq]
    exact lor_not_mask_of_ones b.1 _ (by omega) hm
  have hpw : List.Pairwise
      (fun x y : Nat × Int => x.1 ||| not32 (cidrToMask x.2) < y.1) bs := by
    refine List.Pairwise.imp_of_mem ?_ h2
    intro x y hx _ hxy
    rw [hself x hx]
    exact hxy
  refine ⟨h4 hse, ?_, hpw, hpw.chain'⟩
  intro b hb
  obtain ⟨hlo, hhi, hq, hS, -⟩ := h1 b hb
  rw [hself b hb]
  exact ⟨by omega, by omega, hlo, hhi⟩

/-- C28 for `192.168.0.1 - 192.168.0.10`, which ends after three blocks. -/
theorem C28_terminating_run_in_range_witness :
    (0xC0A80001 : Nat) ≤ 0xC0A8000A ∧ (0xC0A8000A : Nat) < 2 ^ 32 ∧
      deaggregate 5 0xC0A80001 0xC0A8000A =
        some [(0xC0A80001, 31), (0xC0A80003, 30), (0xC0A80007, 29)] ∧
      ∀ b ∈ [((0xC0A80001 : Nat), (31 : Int)), (0xC0A80003, 30), (0xC0A80007, 29)],
        0 ≤ b.2 ∧ b.2 ≤ 32 ∧ 0xC0A80001 ≤ b.1 ∧
        b.1 ||| not32 (cidrToMask b.2) ≤ 0xC0A8000A :=
  ⟨by decide, by decide, by decide,
    (C28_terminating_run_in_range 5 0xC0A80001 0xC0A8000A
      [(0xC0A80001, 31), (0xC0A80003, 30), (0xC0A80007, 29)] (by decide) (by decide)
      (by decide)).2.1⟩

/-- C29: for a range `start ≤ end`, `deaggregate` terminates exactly when
`end ≠ 0xFFFFFFFF`. When `end < 0xFFFFFFFF`, every iteration moves `base` to
`base + 2 ^ step`, which is above `base` and below `2 ^ 32` (no wrap), the run
ends within `end - start + 1` iterations and prints at most `end - start + 1`
blocks, with increasing addresses. When `end = 0xFFFFFFFF`, `base ≤ end`
holds for every 32-bit `base` and no number of iterations ends the loop. -/
theorem C29_termination_iff (start end_ : Nat) (hse : start ≤ end_) (he : end_ < 2 ^ 32) :
    ((∃ fuel bs, deaggregate fuel start end_ = some bs) ↔ end_ ≠ 0xFFFFFFFF) ∧
      (end_ < 0xFFFFFFFF →
        (∀ base, base ≤ end_ →
          add32 base (shl32 1 (deaggStep base end_ 32 0)) =
            base + 2 ^ deaggStep base end_ 32 0 ∧
          base < add32 base (shl32 1 (deaggStep base end_ 32 0)) ∧
          base + 2 ^ deaggStep base end_ 32 0 < 2 ^ 32) ∧
        (∃ bs, deaggregate (end_ - start + 1) start end_ = some bs) ∧
        (∀ fuel bs, deaggregate fuel start end_ = some bs →
          bs.length ≤ end_ - start + 1 ∧
          List.Pairwise (fun x y : Nat × Int => x.1 < y.1) bs)) ∧
      (end_ = 0xFFFFFFFF →
        (∀ base, base < 2 ^ 32 → base ≤ end_) ∧
        ∀ fuel, deaggregate fuel start end_ = none) := by
  have htop : end_ = 0xFFFFFFFF → ∀ fuel, deaggregate fuel start end_ = none := by
    intro h fuel
    unfold deaggregate
    rw [h]
    exact deaggregateLoop_top fuel start (by omega)
  refine ⟨⟨?_, ?_⟩, ?_, ?_⟩
  · rintro ⟨fuel, bs, h⟩ heq
    rw [htop heq fuel] at h
    exact Option.noConfusion h
  · intro hne
    obtain ⟨bs, hbs⟩ := deaggregateLoop_terminates end_ (by omega) (end_ + 1 - start) start
      le_rfl
    exact ⟨end_ + 1 - start, bs, hbs⟩
  · intro hlt
    refine ⟨?_, ?_, ?_⟩
    · intro base hbase
      obtain ⟨hS, hm⟩ := deaggStep_le base end_
      obtain ⟨-, hnw, hadv⟩ := deagg_advance base _ hS (by omega) hm
      have hpos : 0 < 2 ^ deaggStep base end_ 32 0 := Nat.two_pow_pos _
      exact ⟨hadv, by rw [hadv]; omega, by omega⟩
    · have e : end_ - start + 1 = end_ + 1 - start := by omega
      rw [e]
      exact deaggregateLoop_terminates end_ (by omega) (end_ + 1 - start) start le_rfl
    · intro fuel bs h
      obtain ⟨-, h2, h3, -⟩ := deaggregateLoop_run end_ (by omega) fuel start bs h
      exact ⟨by omega, h2⟩
  · intro heq
    exact ⟨fun base hb => by omega, htop heq⟩

/-- C29 for `192.168.0.1 - 192.168.0.10`: the run ends within 10 iterations. -/
theorem C29_termination_iff_witness :
    (0xC0A80001 : Nat) ≤ 0xC0A8000A ∧ (0xC0A8000A : Nat) < 2 ^ 32 ∧
      ((∃ fuel bs, deaggregate fuel 0xC0A80001 0xC0A8000A = some bs) ↔
        (0xC0A8000A : Nat) ≠ 0xFFFFFFFF) :=
  ⟨by decide, by decide,
    (C29_termination_iff 0xC0A80001 0xC0A8000A (by decide) (by decide)).1⟩

/-- C30: the block printed in an iteration with current address `base` has
length `q = 32 - S`, where the low `S = 32 - q` bits of `base` are all ones,
so `base | ^cidrToMask(q) = base`; when `base` is even, `S = 0` and the block
is `base/32`; when `q < 32`, `base` is not aligned to `q`. Every block of a
finished run is printed by such an iteration. -/
theorem C30_emitted_block_low_bits_ones (base end_ : Nat) (hb : base < 2 ^ 32) :
    deaggStep base end_ 32 0 ≤ 32 ∧
      (∀ i, i < deaggStep base end_ 32 0 → base.testBit i = true) ∧
      base ||| not32 (cidrToMask (32 - (deaggStep base end_ 32 0 : Int))) = base ∧
      (base % 2 = 0 → (32 : Int) - (deaggStep base end_ 32 0 : Int) = 32) ∧
      ((32 : Int) - (deaggStep base end_ 32 0 : Int) < 32 →
        base &&& cidrToMask (32 - (deaggStep base end_ 32 0 : Int)) ≠ base ∧
        ¬ blockAligned (base, 32 - (deaggStep base end_ 32 0 : Int))) ∧
      (∀ (fuel start : Nat) (bs : List (Nat × Int)), start < 2 ^ 32 →
        deaggregate fuel start end_ = some bs →
        ∀ b ∈ bs, b.1 < 2 ^ 32 ∧ b.2 = 32 - (deaggStep b.1 end_ 32 0 : Int)) := by
  obtain ⟨hS, hm⟩ := deaggStep_le base end_
  have hpos : 0 < 2 ^ deaggStep base end_ 32 0 := Nat.two_pow_pos _
  have hj : (32 - (32 - (deaggStep base end_ 32 0 : Int))).toNat = deaggStep base end_ 32 0 := by
    omega
  refine ⟨hS, ?_, lor_not_mask_of_ones base _ hS hm, ?_, ?_, ?_⟩
  · intro i hi
    have h1 : (base % 2 ^ deaggStep base end_ 32 0).testBit i = base.testBit i := by
      rw [Nat.testBit_mod_two_pow]; simp [hi]
    rw [hm, Nat.testBit_two_pow_sub_one] at h1
    simp [hi] at h1
    exact h1
  · intro hev
    rw [deaggStep_even base end_ hev]
    rfl
  · intro hq
    have hS1 : 1 ≤ deaggStep base end_ 32 0 := by omega
    have hge : 2 ^ 1 ≤ 2 ^ deaggStep base end_ 32 0 :=
      Nat.pow_le_pow_right (by norm_num) hS1
    have hnz : base % 2 ^ deaggStep base end_ 32 0 ≠ 0 := by omega
    constructor
    · intro hal
      have := (aligned_iff base _ hb (by omega) (by omega)).1 hal
      rw [hj] at this
      exact hnz this
    · unfold blockAligned
      simp only
      rw [hj]
      exact hnz
  · intro fuel start bs hs hrun
    exact deaggregateLoop_blocks end_ fuel start bs hs hrun

/-- C30 at `base = 192.168.0.7` in the range up to `192.168.0.10`: the
block is `/29` and the three low bits of the address are ones. -/
theorem C30_emitted_block_low_bits_ones_witness :
    (0xC0A80007 : Nat) < 2 ^ 32 ∧ deaggStep 0xC0A80007 0xC0A8000A 32 0 = 3 ∧
      0xC0A80007 |||
        not32 (cidrToMask (32 - (deaggStep 0xC0A80007 0xC0A8000A 32 0 : Int))) =
          0xC0A80007 :=
  ⟨by decide, by decide,
    (C30_emitted_block_low_bits_ones 0xC0A80007 0xC0A8000A (by decide)).2.2.1⟩

end Goipcalc
